import Mathlib

/-!
# Completion resolvers of `src/index.js`

A shallow embedding of the two completion resolvers `htmlContextCompletions`
and `cssContextCompletions`, of the table `wellKnownProperties` and of the
mutable HTML vocabulary `wellKnownHtmlTags`.

Strings are lists of characters, offsets are natural numbers, the numbers
computed by subtraction (`from`, `boost`) are integers.  A resolver that can
raise a JavaScript exception returns in `Except`.
-/

namespace CodeMirrorBuild

/-! ## Character classes of the regular expressions -/

/-- The class `\w` of a regular expression without the unicode flag: `[A-Za-z0-9_]`. -/
def isWord (c : Char) : Bool :=
  (48 ≤ c.toNat && c.toNat ≤ 57) || (65 ≤ c.toNat && c.toNat ≤ 90) || c.toNat == 95 ||
    (97 ≤ c.toNat && c.toNat ≤ 122)

/-- The class `[\w\-]`. -/
def isWordOrHyphen (c : Char) : Bool :=
  isWord c || c == '-'

/-- The line terminators of the language: LF, CR, U+2028, U+2029. -/
def isLineTerminator (c : Char) : Bool :=
  c.toNat == 10 || c.toNat == 13 || c.toNat == 8232 || c.toNat == 8233

/-- The class `\s`: the white space characters and the line terminators. -/
def isSpace (c : Char) : Bool :=
  c.toNat == 9 || c.toNat == 11 || c.toNat == 12 || c.toNat == 32 || c.toNat == 160 ||
    c.toNat == 5760 || (8192 ≤ c.toNat && c.toNat ≤ 8202) || c.toNat == 8239 ||
    c.toNat == 8287 || c.toNat == 12288 || c.toNat == 65279 || isLineTerminator c

/-- The class `.` (without the `s` flag): every character but a line terminator. -/
def isDot (c : Char) : Bool :=
  !isLineTerminator c

/-- The class of the single character `<`. -/
def isLt (c : Char) : Bool :=
  c == '<'

/-- The class of the single character `:`. -/
def isColon (c : Char) : Bool :=
  c == ':'

/-! ## A backtracking matcher for sequences of quantified character classes

Every regular expression of the source is a sequence of character classes,
each taken once, or under a greedy `*` or `+`, some of them in a capture
group. -/

/-- The quantifier of a piece: exactly once, greedy `*`, greedy `+`. -/
inductive Quant where
  | one
  | star
  | plus
  deriving DecidableEq, Repr

/-- One piece of a regular expression: a character class, its quantifier, and
whether it stands in a capture group. -/
structure Piece where
  cls : Char → Bool
  quant : Quant
  capture : Bool

/-- The least number of characters a quantifier takes. -/
def Quant.lo : Quant → Nat
  | .star => 0
  | _ => 1

/-- The greatest number of characters a quantifier takes out of a run of `n`. -/
def Quant.hi : Quant → Nat → Nat
  | .one, n => min 1 n
  | _, n => n

/-- Try `f k` for `k = hi, hi - 1, ..., lo` and keep the first success: the
order in which a greedy quantifier gives characters back. -/
def tryDown {α : Type} (f : Nat → Option α) (lo : Nat) : Nat → Option α
  | 0 => if lo = 0 then f 0 else none
  | k + 1 =>
    if lo ≤ k + 1 then
      match f (k + 1) with
      | some r => some r
      | none => tryDown f lo k
    else none

/-- Match the pieces at the start of `s` so that the match ends at the end of
`s` (the expression is followed by `$`); the result is the list of captured
groups of the first match the backtracking search finds. -/
def matchEnd : List Piece → List Char → Option (List (List Char))
  | [], s => if s.isEmpty then some [] else none
  | p :: ps, s =>
    tryDown
      (fun k => (matchEnd ps (s.drop k)).map
        (fun caps => if p.capture then s.take k :: caps else caps))
      p.quant.lo (p.quant.hi (s.takeWhile p.cls).length)

/-- The index of the leftmost match that ends at the end of `s`, counted from
`i`: the method `search` of a string with an expression that ends in `$`. -/
def searchFrom (re : List Piece) : List Char → Nat → Option Nat
  | [], i => if (matchEnd re []).isSome then some i else none
  | c :: s, i => if (matchEnd re (c :: s)).isSome then some i else searchFrom re s (i + 1)

/-- The method `search` of a string. -/
def search (re : List Piece) (s : List Char) : Option Nat :=
  searchFrom re s 0

/-- The call `text.replace(re, "$1")` for an expression `re` of the form `^...$`
without the `g` flag: the whole text is replaced by the first group when the
expression matches, and the text is returned unchanged when it does not. -/
def replaceByGroup1 (re : List Piece) (text : List Char) : List Char :=
  match matchEnd re text with
  | some (g :: _) => g
  | _ => text

/-- The expression `/<[\w\-]*/` of `htmlContextCompletions`. -/
def htmlTagRegExp : List Piece :=
  [⟨isLt, .one, false⟩, ⟨isWordOrHyphen, .star, false⟩]

/-- The expression `/[\w\-]+\s*:\s*[\w\-]*/` of `cssContextCompletions`. -/
def cssPropertyRegExp : List Piece :=
  [⟨isWordOrHyphen, .plus, false⟩, ⟨isSpace, .star, false⟩, ⟨isColon, .one, false⟩,
   ⟨isSpace, .star, false⟩, ⟨isWordOrHyphen, .star, false⟩]

/-- The expression `/^([\w\-]+).*$/` that extracts the property name. -/
def propertyNameRegExp : List Piece :=
  [⟨isWordOrHyphen, .plus, true⟩, ⟨isDot, .star, false⟩]

/-- The expression `/^.*:\s*([\w\-]*)$/` that extracts the property value. -/
def propertyValueRegExp : List Piece :=
  [⟨isDot, .star, false⟩, ⟨isColon, .one, false⟩, ⟨isSpace, .star, false⟩,
   ⟨isWordOrHyphen, .star, true⟩]

/-! ## The document query interface -/

/-- The completion context: the document and the cursor offset `pos`. -/
structure CompletionContext where
  doc : List Char
  pos : Nat

/-- The range `{from, to}` returned by `matchBefore`. -/
structure MatchRange where
  «from» : Nat
  «to» : Nat
  deriving DecidableEq, Repr

/-- Modelled from the spec: `matchBefore` belongs to the editor library, which is
not part of the sources.  Following the document query interface of the spec,
`matchBeforeCursor(pattern) -> {from, to} | none`, the pattern is matched against
the text before the cursor, anchored so that the match ends at the cursor, and the
leftmost such match is returned. -/
def CompletionContext.matchBefore (context : CompletionContext) (re : List Piece) :
    Option MatchRange :=
  match search re (context.doc.take context.pos) with
  | none => none
  | some found => some ⟨found, context.pos⟩

/-- Modelled from the spec: `sliceDoc` belongs to the editor library;
`sliceText(fromOffset, toOffset) -> string` is the text of the document
between the two offsets. -/
def CompletionContext.sliceDoc (context : CompletionContext) (a b : Nat) : List Char :=
  (context.doc.drop a).take (b - a)

/-! ## Completion results -/

/-- One option of a completion result: `{ label, type, boost }`. -/
structure Completion where
  label : List Char
  type : String
  boost : Int
  deriving DecidableEq, Repr

/-- A completion result: `{ from, options }`. -/
structure CompletionResult where
  «from» : Int
  options : List Completion
  deriving DecidableEq, Repr

/-- The method `map` of an array with a callback of the value and its index,
the index counted from `i`. -/
def mapWithIndexFrom {α β : Type} (f : α → Nat → β) : Nat → List α → List β
  | _, [] => []
  | i, x :: xs => f x i :: mapWithIndexFrom f (i + 1) xs

/-- The callback of both resolvers:
`(value, index) => { label: value, type: "value", boost: 99 - index }`. -/
def toOption (value : List Char) (index : Nat) : Completion :=
  { label := value, type := "value", boost := 99 - (index : Int) }

/-! ## The HTML resolver -/

/-- The module state: the variable `wellKnownHtmlTags`. -/
structure State where
  wellKnownHtmlTags : List (List Char)

/-- The initial module state: `let wellKnownHtmlTags = [ "div", "span" ]`. -/
def initialState : State :=
  { wellKnownHtmlTags := ["div".toList, "span".toList] }

/-- The exported function `cpSetWellKnownHtmlTags:`. -/
def cpSetWellKnownHtmlTags (htmlTags : List (List Char)) (_ : State) : State :=
  { wellKnownHtmlTags := htmlTags }

/-- The function `htmlContextCompletions`; `none` is `null`. -/
def htmlContextCompletions (st : State) (context : CompletionContext) :
    Option CompletionResult :=
  match context.matchBefore htmlTagRegExp with
  | none => none
  | some textBefore =>
    let text := context.sliceDoc textBefore.from textBefore.to
    let tagName := text.drop 1
    let values := st.wellKnownHtmlTags.filter (fun each => tagName.isPrefixOf each)
    if values.length = 0 then none
    else
      some { «from» := (context.pos : Int) - (tagName.length : Int),
             options := mapWithIndexFrom toOption 0 values }

/-! ## The CSS resolver -/

/-- The object literal `wellKnownProperties`: its own keys with their arrays,
in the order of the source. -/
def wellKnownProperties : List (List Char × List (List Char)) :=
  [ ("display".toList, ["block", "inline-block", "flex", "inline-flex", "grid", "inline-grid",
      "none"].map String.toList),
    ("box-sizing".toList, ["border-box", "content-box"].map String.toList),
    ("position".toList, ["absolute", "relative", "static", "fixed", "sticky"].map String.toList),
    ("flex-direction".toList, ["row", "column", "row-reverse", "column-reverse"].map String.toList),
    ("flex-wrap".toList, ["nowrap", "wrap", "wrap-reverse"].map String.toList),
    ("justify-content".toList, ["flex-start", "flex-end", "center", "space-between",
      "space-around", "space-evenly", "stretch", "start", "end", "left", "right",
      "normal"].map String.toList),
    ("align-items".toList, ["stretch", "flex-start", "flex-end", "center", "baseline", "start",
      "end", "self-start", "self-end", "anchor-center", "normal"].map String.toList),
    ("align-content".toList, ["flex-start", "flex-end", "center", "space-between",
      "space-around", "space-evenly", "stretch", "start", "end", "baseline",
      "normal"].map String.toList),
    ("align-self".toList, ["flex-start", "flex-end", "center", "stretch", "anchor-stretch",
      "baseline", "normal"].map String.toList),
    ("float".toList, ["left", "right", "none", "inline-start", "inline-end"].map String.toList),
    ("overflow".toList, ["scroll", "hidden", "visible", "clip", "auto"].map String.toList),
    ("overflow-x".toList, ["scroll", "hidden", "visible", "clip", "auto"].map String.toList),
    ("overflow-y".toList, ["scroll", "hidden", "visible", "clip", "auto"].map String.toList),
    ("text-transform".toList, ["none", "capitalize", "uppercase", "lowercase", "full-width",
      "full-size-kana"].map String.toList),
    ("cursor".toList, ["auto", "default", "none", "context-menu", "help", "pointer", "progress",
      "wait", "cell", "crosshair", "text", "vertical-text", "alias", "copy", "move", "no-drop",
      "not-allowed", "grab", "grabbing", "all-scroll", "col-resize", "row-resize", "n-resize",
      "e-resize", "s-resize", "w-resize", "ne-resize", "nw-resize", "se-resize", "sw-resize",
      "ew-resize", "ns-resize", "nesw-resize", "nwse-resize", "zoom-in",
      "zoom-out"].map String.toList),
    ("pointer-events".toList, ["auto", "none"].map String.toList) ]

/-- The property names every object literal inherits from `Object.prototype`:
the member access `wellKnownProperties[propertyName]` walks the prototype chain,
so these names are found although the literal does not declare them.  Each of
them is a function, but for `__proto__`, which is the prototype object. -/
def objectPrototypeKeys : List (List Char) :=
  ["constructor", "hasOwnProperty", "isPrototypeOf", "propertyIsEnumerable", "toLocaleString",
   "toString", "valueOf", "__proto__", "__defineGetter__", "__defineSetter__",
   "__lookupGetter__", "__lookupSetter__"].map String.toList

/-- The values a member access on `wellKnownProperties` evaluates to. -/
inductive JSValue where
  | undefined
  | array (values : List (List Char))
  | inherited
  deriving DecidableEq, Repr

/-- The member access `wellKnownProperties[propertyName]`: an own property, or
else a property inherited from `Object.prototype`, or else `undefined`. -/
def wellKnownPropertiesGet (propertyName : List Char) : JSValue :=
  match wellKnownProperties.lookup propertyName with
  | some values => .array values
  | none => if propertyName ∈ objectPrototypeKeys then .inherited else .undefined

/-- The exceptions a resolver can raise. -/
inductive JSError where
  | typeError
  deriving DecidableEq, Repr

/-- The function `cssContextCompletions`; `.ok none` is `null`, `.error` is a
raised exception.  The call `values.map(...)` on an inherited function or object,
which has no method `map`, raises a `TypeError`. -/
def cssContextCompletions (context : CompletionContext) :
    Except JSError (Option CompletionResult) :=
  match context.matchBefore cssPropertyRegExp with
  | none => .ok none
  | some textBefore =>
    let text := context.sliceDoc textBefore.from textBefore.to
    let propertyName := replaceByGroup1 propertyNameRegExp text
    match wellKnownPropertiesGet propertyName with
    | .undefined => .ok none
    | .inherited => .error .typeError
    | .array values =>
      let propertyValue := replaceByGroup1 propertyValueRegExp text
      .ok (some { «from» := (context.pos : Int) - (propertyValue.length : Int),
                  options := mapWithIndexFrom toOption 0 values })

/-! ## Calls of the resolvers on the module state -/

/-- A call of `htmlContextCompletions` on the module state: its result and the
state after the call.  The body of the function reads `wellKnownHtmlTags` and
assigns to no variable of the module; `filter` and `map` build new arrays. -/
def callHtmlContextCompletions (st : State) (context : CompletionContext) :
    Option CompletionResult × State :=
  (htmlContextCompletions st context, st)

/-! ## The module as a state machine

The resolvers and the exported setter as programs on the variables of the module,
statement by statement: the evaluation of a module variable reads the state, an
assignment to a module variable writes it. -/

/-- The variables of the module that the resolvers use, both declared with `let`:
the array `wellKnownHtmlTags` and the object `wellKnownProperties`. -/
structure ModuleState where
  wellKnownHtmlTags : List (List Char)
  wellKnownProperties : List (List Char × List (List Char))
  deriving DecidableEq, Repr

/-- The module state after the module is loaded. -/
def initialModuleState : ModuleState :=
  { wellKnownHtmlTags := initialState.wellKnownHtmlTags,
    wellKnownProperties := wellKnownProperties }

/-- The member access `table[propertyName]` on an object literal with the own
properties `table`: an own property, or else a property inherited from
`Object.prototype`, or else `undefined`. -/
def memberAccess (table : List (List Char × List (List Char))) (propertyName : List Char) :
    JSValue :=
  match table.lookup propertyName with
  | some values => .array values
  | none => if propertyName ∈ objectPrototypeKeys then .inherited else .undefined

/-- The body of `htmlContextCompletions` on the module state.  The identifier
`wellKnownHtmlTags` is evaluated once, in the call of `filter`; `filter` and `map`
return new arrays and leave their receiver as it is. -/
def htmlContextCompletionsM (context : CompletionContext) :
    StateM ModuleState (Option CompletionResult) := do
  match context.matchBefore htmlTagRegExp with
  | none => return none
  | some textBefore =>
    let text := context.sliceDoc textBefore.from textBefore.to
    let tagName := text.drop 1
    let values := (← get).wellKnownHtmlTags.filter (fun each => tagName.isPrefixOf each)
    if values.length = 0 then return none
    else
      return some { «from» := (context.pos : Int) - (tagName.length : Int),
                    options := mapWithIndexFrom toOption 0 values }

/-- The body of `cssContextCompletions` on the module state.  The identifier
`wellKnownProperties` is evaluated once, in the member access; `replace` and `map`
return new values and leave their receiver as it is. -/
def cssContextCompletionsM (context : CompletionContext) :
    StateM ModuleState (Except JSError (Option CompletionResult)) := do
  match context.matchBefore cssPropertyRegExp with
  | none => return .ok none
  | some textBefore =>
    let text := context.sliceDoc textBefore.from textBefore.to
    let propertyName := replaceByGroup1 propertyNameRegExp text
    let values := memberAccess (← get).wellKnownProperties propertyName
    match values with
    | .undefined => return .ok none
    | .inherited => return .error .typeError
    | .array values =>
      let propertyValue := replaceByGroup1 propertyValueRegExp text
      return .ok (some { «from» := (context.pos : Int) - (propertyValue.length : Int),
                         options := mapWithIndexFrom toOption 0 values })

/-- The body of the exported function `cpSetWellKnownHtmlTags:`, the one assignment to
a module variable: `wellKnownHtmlTags = htmlTags`. -/
def cpSetWellKnownHtmlTagsM (htmlTags : List (List Char)) : StateM ModuleState Unit :=
  modify (fun m => { m with wellKnownHtmlTags := htmlTags })

/-- A call on the module: of a resolver, by the editor, or of the exported setter, by
the host page. -/
inductive Call where
  | html (context : CompletionContext)
  | css (context : CompletionContext)
  | setWellKnownHtmlTags (htmlTags : List (List Char))

/-- The value a call returns. -/
inductive CallResult where
  | html (result : Option CompletionResult)
  | css (result : Except JSError (Option CompletionResult))
  | undefined

/-- The program of a call. -/
def Call.run : Call → StateM ModuleState CallResult
  | .html context => do return .html (← htmlContextCompletionsM context)
  | .css context => do return .css (← cssContextCompletionsM context)
  | .setWellKnownHtmlTags htmlTags => do
    cpSetWellKnownHtmlTagsM htmlTags
    return .undefined

/-- A call of a resolver, as opposed to a replacement of the vocabulary. -/
def Call.isResolver : Call → Bool
  | .html _ => true
  | .css _ => true
  | .setWellKnownHtmlTags _ => false

/-- The calls of a list, one after the other, each on the state the one before has
left. -/
def runCalls : List Call → StateM ModuleState (List CallResult)
  | [] => return []
  | call :: calls => do
    let result ← call.run
    let results ← runCalls calls
    return result :: results

/-! ## The construction of an editor -/

/-- The language functions `html` and `css` of the editor library. -/
inductive Language where
  | html
  | css
  deriving DecidableEq, Repr

/-- The completion extensions `customHtmlCompletions` and `customCssCompletions`. -/
inductive Completions where
  | customHtmlCompletions
  | customCssCompletions
  deriving DecidableEq, Repr

/-- An entry `{ language, completions }` of `languageDefinitions`. -/
structure LanguageDef where
  language : Language
  completions : Completions
  deriving DecidableEq, Repr

/-- The object literal `languageDefinitions`: its own keys, in the order of the
source. -/
def languageDefinitions : List (List Char × LanguageDef) :=
  [ ("html".toList, ⟨.html, .customHtmlCompletions⟩),
    ("css".toList, ⟨.css, .customCssCompletions⟩) ]

/-- The values a member access on `languageDefinitions` evaluates to. -/
inductive LanguageDefValue where
  | undefined
  | entry (languageDef : LanguageDef)
  | inherited
  deriving DecidableEq, Repr

/-- The member access `languageDefinitions[lang]`: an own property, or else a property
inherited from `Object.prototype`, or else `undefined`. -/
def languageDefinitionsGet (lang : List Char) : LanguageDefValue :=
  match languageDefinitions.lookup lang with
  | some languageDef => .entry languageDef
  | none => if lang ∈ objectPrototypeKeys then .inherited else .undefined

/-- The configuration `{ doc, extensions }` of `createStateConfig`, of which the
model keeps the document, the completion extension and the language extension. -/
structure StateConfig where
  doc : List Char
  completions : Option Completions
  language : Language
  deriving DecidableEq, Repr

/-- The function `createStateConfig`; the arguments `language` and `completions` are
`none` when they are `undefined`.  The element `language()` of the array
`extensions` is a call, which raises a `TypeError` when `language` is `undefined`. -/
def createStateConfig (doc : List Char) (language : Option Language)
    (completions : Option Completions) : Except JSError StateConfig :=
  match language with
  | none => .error .typeError
  | some l => .ok { doc := doc, completions := completions, language := l }

/-- The editor returned by `createEditor`: the view on the element `parent` with its
configuration. -/
structure Editor where
  parent : Nat
  config : StateConfig
  deriving DecidableEq, Repr

/-- The function `createEditor`: the configuration is built first, then the view.
The element is given by a number; the constructor of the view belongs to the editor
library and is taken to succeed. -/
def createEditor (element : Nat) (doc : List Char) (language : Option Language)
    (completions : Option Completions) : Except JSError Editor :=
  match createStateConfig doc language completions with
  | .error e => .error e
  | .ok config => .ok { parent := element, config := config }

/-- What a call of `cpOpenEditorIn:on:language:` does: the messages written with
`console.error`, and the value returned (`none` is `undefined`) or the exception
raised. -/
structure OpenOutcome where
  errors : List (List Char)
  result : Except JSError (Option Editor)

/-- The exported function `cpOpenEditorIn:on:language:`.  The properties `language`
and `completions` of an inherited function or object are `undefined`. -/
def cpOpenEditorIn (element : Nat) (doc : List Char) (lang : List Char) : OpenOutcome :=
  match languageDefinitionsGet lang with
  | .undefined => { errors := ["Unknown language: ".toList ++ lang], result := .ok none }
  | .entry languageDef =>
    { errors := [],
      result := (createEditor element doc (some languageDef.language)
        (some languageDef.completions)).map some }
  | .inherited =>
    { errors := [], result := (createEditor element doc none none).map some }

/-! ## The language of a sequence of pieces -/

/-- The lengths a quantifier admits. -/
def Quant.admits : Quant → Nat → Prop
  | .one, n => n = 1
  | .star, _ => True
  | .plus, n => 1 ≤ n

/-- The text `s` is in the language of the pieces: it splits into consecutive
runs, one for each piece, of characters of the class of the piece and of a
length its quantifier admits. -/
def Matches : List Piece → List Char → Prop
  | [], s => s = []
  | p :: ps, s =>
    ∃ u v, s = u ++ v ∧ (∀ c ∈ u, p.cls c = true) ∧ p.quant.admits u.length ∧ Matches ps v

/-! ## Properties of the matcher -/

theorem tryDown_isSome {α : Type} (f : Nat → Option α) (lo hi : Nat) :
    (tryDown f lo hi).isSome = true ↔ ∃ k, lo ≤ k ∧ k ≤ hi ∧ (f k).isSome = true := by
  induction hi with
  | zero =>
    unfold tryDown
    constructor
    · intro h
      split at h
      · exact ⟨0, by omega, le_refl _, h⟩
      · simp at h
    · rintro ⟨k, h1, h2, h3⟩
      have hk : k = 0 := by omega
      subst hk
      have hl : lo = 0 := by omega
      simp [hl, h3]
  | succ n ih =>
    unfold tryDown
    constructor
    · intro h
      split at h
      · split at h
        · rename_i r hr
          exact ⟨n + 1, by assumption, le_refl _, by simp [hr]⟩
        · obtain ⟨k, h1, h2, h3⟩ := ih.1 h
          exact ⟨k, h1, by omega, h3⟩
      · simp at h
    · rintro ⟨k, h1, h2, h3⟩
      have hl : lo ≤ n + 1 := by omega
      rw [if_pos hl]
      split
      · simp
      · rename_i hn
        have hk : k ≤ n := by
          by_contra hc
          have : k = n + 1 := by omega
          subst this
          simp [hn] at h3
        exact ih.2 ⟨k, h1, hk, h3⟩

theorem tryDown_eq_of_first {α : Type} (f : Nat → Option α) (lo hi k : Nat)
    (hlo : lo ≤ k) (hhi : k ≤ hi) (hk : (f k).isSome = true)
    (hfirst : ∀ j, k < j → j ≤ hi → f j = none) : tryDown f lo hi = f k := by
  induction hi with
  | zero =>
    have h0 : k = 0 := by omega
    subst h0
    have hl : lo = 0 := by omega
    simp [tryDown, hl]
  | succ n ih =>
    unfold tryDown
    have hl : lo ≤ n + 1 := by omega
    rw [if_pos hl]
    by_cases hkn : k = n + 1
    · subst hkn
      cases hf : f (n + 1) with
      | none => simp [hf] at hk
      | some r => rfl
    · have hnone : f (n + 1) = none := hfirst (n + 1) (by omega) (le_refl _)
      rw [hnone]
      exact ih (by omega) (fun j h1 h2 => hfirst j h1 (by omega))

theorem length_le_takeWhile_append (p : Char → Bool) (u v : List Char)
    (hu : ∀ c ∈ u, p c = true) : u.length ≤ ((u ++ v).takeWhile p).length := by
  induction u with
  | nil => simp
  | cons a u ih =>
    have ha : p a = true := hu a (by simp)
    simp only [List.cons_append, List.takeWhile_cons, ha, if_true, List.length_cons]
    have := ih (fun c hc => hu c (by simp [hc]))
    omega

theorem all_take_of_le_takeWhile (p : Char → Bool) (s : List Char) (k : Nat)
    (hk : k ≤ (s.takeWhile p).length) : ∀ c ∈ s.take k, p c = true := by
  induction s generalizing k with
  | nil => simp
  | cons a s ih =>
    cases k with
    | zero => simp
    | succ k =>
      rw [List.takeWhile_cons] at hk
      by_cases ha : p a = true
      · simp only [ha, if_true, List.length_cons] at hk
        intro c hc
        simp only [List.take_succ_cons, List.mem_cons] at hc
        rcases hc with rfl | hc
        · exact ha
        · exact ih k (by omega) c hc
      · simp [ha] at hk

theorem takeWhile_length_le (p : Char → Bool) (s : List Char) :
    (s.takeWhile p).length ≤ s.length := by
  induction s with
  | nil => simp
  | cons a s ih =>
    rw [List.takeWhile_cons]
    split
    · simp; omega
    · simp

theorem isSome_map_eq {α β : Type} (f : α → β) (x : Option α) :
    (x.map f).isSome = x.isSome := by
  cases x <;> rfl

theorem matchEnd_isSome_iff (re : List Piece) (s : List Char) :
    (matchEnd re s).isSome = true ↔ Matches re s := by
  induction re generalizing s with
  | nil =>
    cases s <;> simp [matchEnd, Matches]
  | cons p ps ih =>
    unfold matchEnd Matches
    rw [tryDown_isSome]
    constructor
    · rintro ⟨k, h1, h2, h3⟩
      rw [isSome_map_eq] at h3
      have hrun : k ≤ (s.takeWhile p.cls).length := by
        cases hq : p.quant <;> simp [hq, Quant.hi] at h2 <;> omega
      refine ⟨s.take k, s.drop k, (List.take_append_drop k s).symm,
        all_take_of_le_takeWhile p.cls s k hrun, ?_, (ih _).1 h3⟩
      have hlen : (s.take k).length = k := by
        have := takeWhile_length_le p.cls s
        simp only [List.length_take]; omega
      rw [hlen]
      cases hq : p.quant <;> simp [hq, Quant.hi, Quant.lo, Quant.admits] at h1 h2 ⊢ <;> omega
    · rintro ⟨u, v, rfl, hu, hadm, hv⟩
      refine ⟨u.length, ?_, ?_, ?_⟩
      · cases hq : p.quant <;> simp [hq, Quant.lo, Quant.admits] at hadm ⊢ <;> omega
      · have := length_le_takeWhile_append p.cls u v hu
        cases hq : p.quant <;> simp [hq, Quant.hi, Quant.admits] at hadm ⊢ <;> omega
      · rw [isSome_map_eq, List.drop_left]
        exact (ih _).2 hv

theorem searchFrom_eq_some_iff (re : List Piece) (s : List Char) (i j : Nat) :
    searchFrom re s i = some j ↔
      ∃ d, j = i + d ∧ d ≤ s.length ∧ Matches re (s.drop d) ∧
        ∀ e, e < d → ¬ Matches re (s.drop e) := by
  induction s generalizing i with
  | nil =>
    unfold searchFrom
    constructor
    · intro h
      split at h
      · rename_i hm
        injection h with h
        exact ⟨0, by omega, by simp, by simpa using (matchEnd_isSome_iff re []).1 hm, by simp⟩
      · simp at h
    · rintro ⟨d, rfl, hd, hm, -⟩
      have hd0 : d = 0 := by simpa using hd
      subst hd0
      simp [(matchEnd_isSome_iff re []).2 (by simpa using hm)]
  | cons c s ih =>
    unfold searchFrom
    by_cases hm : (matchEnd re (c :: s)).isSome = true
    · rw [if_pos hm]
      constructor
      · intro h
        injection h with h
        exact ⟨0, by omega, by simp, by simpa using (matchEnd_isSome_iff re _).1 hm, by simp⟩
      · rintro ⟨d, rfl, hd, hmd, hfirst⟩
        cases d with
        | zero => rfl
        | succ d =>
          exact absurd (by simpa using (matchEnd_isSome_iff re _).1 hm) (hfirst 0 (by omega))
    · rw [if_neg hm, ih]
      have hm0 : ¬ Matches re (c :: s) := fun h => hm ((matchEnd_isSome_iff re _).2 h)
      constructor
      · rintro ⟨d, rfl, hd, hmd, hfirst⟩
        refine ⟨d + 1, by omega, by simp; omega, by simpa using hmd, ?_⟩
        intro e he
        cases e with
        | zero => simpa using hm0
        | succ e => simpa using hfirst e (by omega)
      · rintro ⟨d, rfl, hd, hmd, hfirst⟩
        cases d with
        | zero => exact absurd (by simpa using hmd) hm0
        | succ d =>
          refine ⟨d, by omega, by simpa using hd, by simpa using hmd, ?_⟩
          intro e he
          simpa using hfirst (e + 1) (by omega)

theorem searchFrom_eq_none_iff (re : List Piece) (s : List Char) (i : Nat) :
    searchFrom re s i = none ↔ ∀ d, d ≤ s.length → ¬ Matches re (s.drop d) := by
  constructor
  · intro h d hd hm
    -- take the least matching offset
    have hex : ∃ d, d ≤ s.length ∧ Matches re (s.drop d) := ⟨d, hd, hm⟩
    classical
    let d0 := Nat.find hex
    have h0 := Nat.find_spec hex
    have hmin : ∀ e, e < d0 → ¬ Matches re (s.drop e) := fun e he hme =>
      Nat.find_min hex he ⟨by omega, hme⟩
    have := (searchFrom_eq_some_iff re s i (i + d0)).2 ⟨d0, rfl, h0.1, h0.2, hmin⟩
    rw [h] at this
    exact Option.noConfusion this
  · intro h
    cases hs : searchFrom re s i with
    | none => rfl
    | some j =>
      obtain ⟨d, -, hd, hm, -⟩ := (searchFrom_eq_some_iff re s i j).1 hs
      exact absurd hm (h d hd)

/-! ## The HTML resolver: the match before the cursor -/

theorem isLt_iff (c : Char) : isLt c = true ↔ c = '<' := by
  simp [isLt]

theorem isColon_iff (c : Char) : isColon c = true ↔ c = ':' := by
  simp [isColon]

theorem matches_htmlTagRegExp (t : List Char) :
    Matches htmlTagRegExp t ↔ ∃ P, t = '<' :: P ∧ ∀ c ∈ P, isWordOrHyphen c = true := by
  simp only [htmlTagRegExp, Matches, Quant.admits]
  constructor
  · rintro ⟨u, v, rfl, hu, hlen, w, v2, rfl, hw, -, rfl⟩
    match u, hlen, hu with
    | [a], _, hu =>
      have ha : a = '<' := (isLt_iff a).1 (hu a (by simp))
      subst ha
      exact ⟨w, by simp, hw⟩
  · rintro ⟨P, rfl, hP⟩
    exact ⟨['<'], P, rfl, by simp [isLt], rfl, P, [], by simp, hP, trivial, rfl⟩

theorem search_htmlTagRegExp (pre P : List Char) (hP : ∀ c ∈ P, isWordOrHyphen c = true) :
    search htmlTagRegExp (pre ++ '<' :: P) = some pre.length := by
  unfold search
  rw [searchFrom_eq_some_iff]
  refine ⟨pre.length, by omega, by simp, ?_, ?_⟩
  · rw [List.drop_left, matches_htmlTagRegExp]
    exact ⟨P, rfl, hP⟩
  · intro e he hm
    rw [matches_htmlTagRegExp] at hm
    obtain ⟨Q, hQ, hQw⟩ := hm
    have hsplit : (pre ++ '<' :: P).drop e = pre.drop e ++ '<' :: P := by
      rw [List.drop_append_of_le_length (by omega)]
    rw [hsplit] at hQ
    cases hpe : pre.drop e with
    | nil =>
      have : (pre.drop e).length = pre.length - e := List.length_drop e pre
      rw [hpe] at this
      simp at this
      omega
    | cons a r =>
      rw [hpe] at hQ
      simp only [List.cons_append, List.cons.injEq] at hQ
      have hmem : '<' ∈ Q := by rw [← hQ.2]; simp
      have := hQw _ hmem
      revert this
      decide

theorem search_htmlTagRegExp_some (s : List Char) (i : Nat)
    (h : search htmlTagRegExp s = some i) :
    ∃ pre P, s = pre ++ '<' :: P ∧ (∀ c ∈ P, isWordOrHyphen c = true) ∧ i = pre.length := by
  unfold search at h
  rw [searchFrom_eq_some_iff] at h
  obtain ⟨d, rfl, hd, hm, -⟩ := h
  rw [matches_htmlTagRegExp] at hm
  obtain ⟨P, hP, hPw⟩ := hm
  refine ⟨s.take d, P, ?_, hPw, ?_⟩
  · rw [← hP, List.take_append_drop]
  · simp [List.length_take]; omega

theorem search_htmlTagRegExp_none (s : List Char)
    (h : ¬ ∃ pre P, s = pre ++ '<' :: P ∧ ∀ c ∈ P, isWordOrHyphen c = true) :
    search htmlTagRegExp s = none := by
  cases hs : search htmlTagRegExp s with
  | none => rfl
  | some i =>
    obtain ⟨pre, P, h1, h2, -⟩ := search_htmlTagRegExp_some s i hs
    exact absurd ⟨pre, P, h1, h2⟩ h

theorem sliceDoc_eq (doc : List Char) (pos a : Nat) :
    CompletionContext.sliceDoc ⟨doc, pos⟩ a pos = (doc.take pos).drop a := by
  simp [CompletionContext.sliceDoc, List.drop_take]

/-- The result of the HTML resolver when `<` and a run `P` of word or hyphen
characters stand before the cursor. -/
theorem html_of_match (st : State) (doc : List Char) (pos : Nat) (pre P : List Char)
    (h : doc.take pos = pre ++ '<' :: P) (hP : ∀ c ∈ P, isWordOrHyphen c = true) :
    htmlContextCompletions st ⟨doc, pos⟩ =
      if (st.wellKnownHtmlTags.filter (fun each => P.isPrefixOf each)).length = 0 then none
      else some { «from» := (pos : Int) - (P.length : Int),
                  options := mapWithIndexFrom toOption 0
                    (st.wellKnownHtmlTags.filter (fun each => P.isPrefixOf each)) } := by
  unfold htmlContextCompletions CompletionContext.matchBefore
  simp only [h, search_htmlTagRegExp pre P hP, sliceDoc_eq, List.drop_left, List.drop_one,
    List.tail_cons]

/-- The HTML resolver returns `null` when no `<` with a run of word or hyphen
characters stands before the cursor. -/
theorem html_of_no_match (st : State) (doc : List Char) (pos : Nat)
    (h : ¬ ∃ pre P, doc.take pos = pre ++ '<' :: P ∧ ∀ c ∈ P, isWordOrHyphen c = true) :
    htmlContextCompletions st ⟨doc, pos⟩ = none := by
  unfold htmlContextCompletions CompletionContext.matchBefore
  simp only [search_htmlTagRegExp_none _ h]

theorem map_label_mapWithIndexFrom (i : Nat) (values : List (List Char)) :
    (mapWithIndexFrom toOption i values).map Completion.label = values := by
  induction values generalizing i with
  | nil => rfl
  | cons v vs ih => simp [mapWithIndexFrom, toOption, ih]

theorem length_mapWithIndexFrom {α β : Type} (f : α → Nat → β) (i : Nat) (xs : List α) :
    (mapWithIndexFrom f i xs).length = xs.length := by
  induction xs generalizing i with
  | nil => rfl
  | cons v vs ih => simp [mapWithIndexFrom, ih]

/-! ## The HTML resolver: the claims -/

/-- C1: when the text before the cursor ends with `<` followed by a run `P` of
word or hyphen characters, the labels of the options of `htmlContextCompletions`
are exactly the vocabulary entries that start with `P`, in vocabulary order and with
their multiplicities: the result is `null` when no entry starts with `P`, and else a
result whose list of labels is the filtered vocabulary and whose `from` is the
cursor minus the length of `P`. -/
theorem html_labels_eq_filter (st : State) (doc : List Char) (pos : Nat) (pre P : List Char)
    (h : doc.take pos = pre ++ '<' :: P) (hP : ∀ c ∈ P, isWordOrHyphen c = true) :
    (st.wellKnownHtmlTags.filter (fun each => P.isPrefixOf each) = [] →
        htmlContextCompletions st ⟨doc, pos⟩ = none) ∧
      (st.wellKnownHtmlTags.filter (fun each => P.isPrefixOf each) ≠ [] →
        ∃ r, htmlContextCompletions st ⟨doc, pos⟩ = some r ∧
          r.options.map Completion.label =
            st.wellKnownHtmlTags.filter (fun each => P.isPrefixOf each) ∧
          r.from = (pos : Int) - (P.length : Int)) := by
  rw [html_of_match st doc pos pre P h hP]
  constructor
  · intro hnil
    simp [hnil]
  · intro hne
    have hlen : (st.wellKnownHtmlTags.filter (fun each => P.isPrefixOf each)).length ≠ 0 := by
      intro h0
      exact hne (List.length_eq_zero.1 h0)
    rw [if_neg hlen]
    exact ⟨_, rfl, map_label_mapWithIndexFrom 0 _, rfl⟩

/-- Witness of C1: with the vocabulary `["div", "span"]`, the document `<d` and the
cursor at offset 2 the result is `{from: 1, options: [{label: "div", boost: 99}]}`. -/
theorem html_labels_eq_filter_witness :
    htmlContextCompletions initialState ⟨"<d".toList, 2⟩ =
        some ⟨1, [⟨"div".toList, "value", 99⟩]⟩ ∧
      ((initialState.wellKnownHtmlTags.filter (fun each => "d".toList.isPrefixOf each) = [] →
          htmlContextCompletions initialState ⟨"<d".toList, 2⟩ = none) ∧
        (initialState.wellKnownHtmlTags.filter (fun each => "d".toList.isPrefixOf each) ≠ [] →
          ∃ r, htmlContextCompletions initialState ⟨"<d".toList, 2⟩ = some r ∧
            r.options.map Completion.label =
              initialState.wellKnownHtmlTags.filter (fun each => "d".toList.isPrefixOf each) ∧
            r.from = ((2 : Nat) : Int) - (("d".toList.length : Nat) : Int))) :=
  ⟨by decide,
   html_labels_eq_filter initialState "<d".toList 2 [] "d".toList (by decide) (by decide)⟩

/-- C7: `htmlContextCompletions` returns a result if and only if the text before the
cursor ends with `<` followed by a run `P` of word or hyphen characters and some
vocabulary entry starts with `P`; a result never has an empty list of options. -/
theorem html_isSome_iff (st : State) (doc : List Char) (pos : Nat) :
    ((htmlContextCompletions st ⟨doc, pos⟩).isSome = true ↔
        ∃ pre P, doc.take pos = pre ++ '<' :: P ∧ (∀ c ∈ P, isWordOrHyphen c = true) ∧
          ∃ each ∈ st.wellKnownHtmlTags, P.isPrefixOf each = true) ∧
      ∀ r, htmlContextCompletions st ⟨doc, pos⟩ = some r → r.options ≠ [] := by
  by_cases hm : ∃ pre P, doc.take pos = pre ++ '<' :: P ∧ ∀ c ∈ P, isWordOrHyphen c = true
  · obtain ⟨pre, P, h, hP⟩ := hm
    rw [html_of_match st doc pos pre P h hP]
    by_cases hlen : (st.wellKnownHtmlTags.filter (fun each => P.isPrefixOf each)).length = 0
    · rw [if_pos hlen]
      refine ⟨⟨by simp, ?_⟩, by simp⟩
      rintro ⟨pre2, P2, h2, hP2, each, hmem, hpre⟩
      exfalso
      have hs := search_htmlTagRegExp pre P hP
      rw [← h, h2, search_htmlTagRegExp pre2 P2 hP2] at hs
      have hlen2 : pre2.length = pre.length := by injection hs
      have hPP : P2 = P := by
        have h3 : pre2 ++ '<' :: P2 = pre ++ '<' :: P := by rw [← h2, h]
        have := List.append_inj h3 hlen2
        simpa using this.2
      subst hPP
      have hin : each ∈ st.wellKnownHtmlTags.filter (fun each => P2.isPrefixOf each) :=
        List.mem_filter.2 ⟨hmem, hpre⟩
      rw [List.length_eq_zero.1 hlen] at hin
      simp at hin
    · rw [if_neg hlen]
      refine ⟨⟨fun _ => ?_, fun _ => rfl⟩, ?_⟩
      · obtain ⟨each, hin⟩ := List.exists_mem_of_length_pos (Nat.pos_of_ne_zero hlen)
        have := List.mem_filter.1 hin
        exact ⟨pre, P, h, hP, each, this.1, this.2⟩
      · intro r hr
        injection hr with hr
        subst hr
        intro hnil
        apply hlen
        have := congrArg List.length hnil
        simpa [length_mapWithIndexFrom] using this
  · rw [html_of_no_match st doc pos hm]
    refine ⟨⟨by simp, ?_⟩, by simp⟩
    rintro ⟨pre, P, h, hP, -⟩
    exact absurd ⟨pre, P, h, hP⟩ hm

/-- C9: for every result of `htmlContextCompletions` with the cursor inside the
document, `from` is the cursor minus the length of the partial tag name (the text
between the matched `<` and the cursor) and is the offset `k` of the matched `<`
plus one; the character at `from - 1` is `<`, and every character of the range
from `from` to the cursor is a word character or a hyphen. -/
theorem html_from_spec (st : State) (doc : List Char) (pos : Nat) (r : CompletionResult)
    (hpos : pos ≤ doc.length) (h : htmlContextCompletions st ⟨doc, pos⟩ = some r) :
    ∃ k : Nat, k < pos ∧ doc[k]? = some '<' ∧ r.from = (k : Int) + 1 ∧
      r.from = (pos : Int) -
        ((CompletionContext.sliceDoc ⟨doc, pos⟩ (k + 1) pos).length : Int) ∧
      ∀ j, k + 1 ≤ j → j < pos → ∃ c, doc[j]? = some c ∧ isWordOrHyphen c = true := by
  by_cases hm : ∃ pre P, doc.take pos = pre ++ '<' :: P ∧ ∀ c ∈ P, isWordOrHyphen c = true
  · obtain ⟨pre, P, ht, hP⟩ := hm
    rw [html_of_match st doc pos pre P ht hP] at h
    split at h
    · exact Option.noConfusion h
    · injection h with h
      subst h
      have hlen : pos = pre.length + (1 + P.length) := by
        have := congrArg List.length ht
        simp only [List.length_take, List.length_append, List.length_cons] at this
        omega
      have hget : ∀ j, j < pos → doc[j]? = (pre ++ '<' :: P)[j]? := by
        intro j hj
        rw [← ht, List.getElem?_take_of_lt hj]
      have hslice : CompletionContext.sliceDoc ⟨doc, pos⟩ (pre.length + 1) pos = P := by
        rw [sliceDoc_eq, ht]
        have : pre ++ '<' :: P = (pre ++ ['<']) ++ P := by simp
        rw [this]
        exact List.drop_left' (by simp)
      refine ⟨pre.length, by omega, ?_, ?_, ?_, ?_⟩
      · rw [hget _ (by omega), List.getElem?_append_right (le_refl _)]
        simp
      · simp only [hlen]
        push_cast
        omega
      · rw [hslice]
      · intro j hj1 hj2
        rw [hget j hj2, List.getElem?_append_right (by omega)]
        obtain ⟨i, hi⟩ : ∃ i, j - pre.length = i + 1 := ⟨j - pre.length - 1, by omega⟩
        rw [hi, List.getElem?_cons_succ]
        have hiP : i < P.length := by omega
        refine ⟨P[i], List.getElem?_eq_getElem hiP, hP _ (List.getElem_mem _)⟩
  · rw [html_of_no_match st doc pos hm] at h
    exact Option.noConfusion h

/-- Witness of C9: the document `a <di`, the cursor at its end. -/
theorem html_from_spec_witness :
    ∃ k : Nat, k < 5 ∧ ("a <di".toList)[k]? = some '<' ∧
      (⟨3, [⟨"div".toList, "value", 99⟩]⟩ : CompletionResult).from = (k : Int) + 1 ∧
      (⟨3, [⟨"div".toList, "value", 99⟩]⟩ : CompletionResult).from = ((5 : Nat) : Int) -
        ((CompletionContext.sliceDoc ⟨"a <di".toList, 5⟩ (k + 1) 5).length : Int) ∧
      ∀ j, k + 1 ≤ j → j < 5 →
        ∃ c, ("a <di".toList)[j]? = some c ∧ isWordOrHyphen c = true :=
  html_from_spec initialState "a <di".toList 5 ⟨3, [⟨"div".toList, "value", 99⟩]⟩
    (by decide) (by decide)

/-! ## The character classes are disjoint where the expressions need it -/

theorem not_word_of_space (c : Char) (h : isSpace c = true) : isWordOrHyphen c = false := by
  by_cases hc : c = '-'
  · subst hc
    revert h
    decide
  · simp only [isSpace, isLineTerminator, Bool.or_eq_true, Bool.and_eq_true, beq_iff_eq,
      decide_eq_true_eq] at h
    simp only [isWordOrHyphen, isWord, Bool.or_eq_false_iff, Bool.and_eq_false_iff,
      beq_eq_false_iff_ne, decide_eq_false_iff_not, ne_eq]
    refine ⟨?_, hc⟩
    omega

theorem not_word_of_colon (c : Char) (h : isColon c = true) : isWordOrHyphen c = false := by
  rw [isColon_iff] at h
  subst h
  decide

theorem not_space_of_colon (c : Char) (h : isColon c = true) : isSpace c = false := by
  rw [isColon_iff] at h
  subst h
  decide

theorem not_word_of_lineTerminator (c : Char) (h : isLineTerminator c = true) :
    isWordOrHyphen c = false := by
  apply not_word_of_space
  simp [isSpace, h]

theorem dot_of_word (c : Char) (h : isWordOrHyphen c = true) : isDot c = true := by
  cases hd : isLineTerminator c with
  | false => simp [isDot, hd]
  | true => rw [not_word_of_lineTerminator c hd] at h; exact Bool.noConfusion h

theorem dot_of_colon (c : Char) (h : isColon c = true) : isDot c = true := by
  rw [isColon_iff] at h
  subst h
  decide

/-! ## The CSS resolver: the match before the cursor and the two extractions -/

theorem matches_cssPropertyRegExp (t : List Char) :
    Matches cssPropertyRegExp t ↔
      ∃ N S1 S2 V, t = N ++ S1 ++ ':' :: (S2 ++ V) ∧ N ≠ [] ∧
        (∀ c ∈ N, isWordOrHyphen c = true) ∧ (∀ c ∈ S1, isSpace c = true) ∧
        (∀ c ∈ S2, isSpace c = true) ∧ (∀ c ∈ V, isWordOrHyphen c = true) := by
  simp only [cssPropertyRegExp, Matches, Quant.admits]
  constructor
  · rintro ⟨N, v, rfl, hN, hlen, S1, v2, rfl, hS1, -, u3, v3, rfl, hu3, hlen3, S2, v4, rfl, hS2,
      -, V, v5, rfl, hV, -, rfl⟩
    match u3, hlen3, hu3 with
    | [a], _, hu3 =>
      have ha : a = ':' := (isColon_iff a).1 (hu3 a (by simp))
      subst ha
      refine ⟨N, S1, S2, V, by simp, ?_, hN, hS1, hS2, hV⟩
      intro hnil
      subst hnil
      simp at hlen
  · rintro ⟨N, S1, S2, V, rfl, hne, hN, hS1, hS2, hV⟩
    refine ⟨N, S1 ++ ':' :: (S2 ++ V), by simp, hN, ?_, S1, ':' :: (S2 ++ V), rfl, hS1, trivial,
      [':'], S2 ++ V, rfl, by simp [isColon], rfl, S2, V, rfl, hS2, trivial, V, [], by simp, hV,
      trivial, rfl⟩
    cases N with
    | nil => exact absurd rfl hne
    | cons a N => simp

theorem takeWhile_append_stop (p : Char → Bool) (u v : List Char)
    (hu : ∀ c ∈ u, p c = true) (hv : ∀ c, v.head? = some c → p c = false) :
    (u ++ v).takeWhile p = u := by
  induction u with
  | nil =>
    cases v with
    | nil => rfl
    | cons a v => simp [List.takeWhile_cons, hv a rfl]
  | cons a u ih =>
    have ha : p a = true := hu a (by simp)
    simp only [List.cons_append, List.takeWhile_cons, ha, if_true]
    rw [ih (fun c hc => hu c (by simp [hc]))]

/-- A greedy piece that takes its whole run `u`, the rest of the expression matching
the rest `v` of the text: the first match found. -/
theorem matchEnd_cons_top (p : Piece) (ps : List Piece) (u v : List Char)
    (caps : List (List Char)) (hlo : p.quant.lo ≤ u.length)
    (hhi : p.quant.hi ((u ++ v).takeWhile p.cls).length = u.length)
    (hv : matchEnd ps v = some caps) :
    matchEnd (p :: ps) (u ++ v) = some (if p.capture = true then u :: caps else caps) := by
  unfold matchEnd
  rw [hhi, tryDown_eq_of_first _ _ _ u.length hlo (le_refl _)]
  · simp [hv]
  · simp [hv]
  · intro j h1 h2
    omega

theorem matchEnd_nil_nil : matchEnd [] [] = some [] := rfl

theorem matchEnd_eq_none_iff (re : List Piece) (s : List Char) :
    matchEnd re s = none ↔ ¬ Matches re s := by
  rw [← matchEnd_isSome_iff]
  cases matchEnd re s <;> simp

theorem propertyName_of_match (N S1 S2 V : List Char) (hne : N ≠ [])
    (hN : ∀ c ∈ N, isWordOrHyphen c = true) (hS1 : ∀ c ∈ S1, isSpace c = true)
    (hV : ∀ c ∈ V, isWordOrHyphen c = true)
    (hdot : ∀ c ∈ S1 ++ S2, isLineTerminator c = false) :
    replaceByGroup1 propertyNameRegExp (N ++ S1 ++ ':' :: (S2 ++ V)) = N := by
  have hrest : ∀ c ∈ S1 ++ ':' :: (S2 ++ V), isDot c = true := by
    intro c hc
    simp only [List.mem_append, List.mem_cons] at hc
    rcases hc with hc | rfl | hc | hc
    · simp [isDot, hdot c (by simp [hc])]
    · decide
    · simp [isDot, hdot c (by simp [hc])]
    · exact dot_of_word c (hV c hc)
  have h2 : matchEnd [⟨isDot, .star, false⟩] (S1 ++ ':' :: (S2 ++ V)) = some [] := by
    have := matchEnd_cons_top ⟨isDot, .star, false⟩ [] (S1 ++ ':' :: (S2 ++ V)) [] []
      (by simp [Quant.lo])
      (by
        simp only [Quant.hi, List.append_nil]
        rw [List.takeWhile_eq_self_iff.2 hrest])
      matchEnd_nil_nil
    simpa using this
  have hstop : ∀ c, (S1 ++ ':' :: (S2 ++ V)).head? = some c → isWordOrHyphen c = false := by
    intro c hc
    cases S1 with
    | nil =>
      simp at hc
      subst hc
      decide
    | cons a S1 =>
      simp at hc
      subst hc
      exact not_word_of_space _ (hS1 _ (by simp))
  have h1 := matchEnd_cons_top ⟨isWordOrHyphen, .plus, true⟩ [⟨isDot, .star, false⟩] N
    (S1 ++ ':' :: (S2 ++ V)) []
    (by
      cases N with
      | nil => exact absurd rfl hne
      | cons a N => simp [Quant.lo])
    (by
      simp only [Quant.hi]
      rw [takeWhile_append_stop _ _ _ hN hstop])
    h2
  unfold replaceByGroup1 propertyNameRegExp
  rw [List.append_assoc, h1]
  rfl

theorem propertyName_of_lineTerminator (t : List Char)
    (h : ∃ c ∈ t, isLineTerminator c = true) :
    replaceByGroup1 propertyNameRegExp t = t := by
  have hnone : matchEnd propertyNameRegExp t = none := by
    rw [matchEnd_eq_none_iff]
    simp only [propertyNameRegExp, Matches]
    rintro ⟨u, v, rfl, hu, -, u2, v2, rfl, hu2, -, rfl⟩
    obtain ⟨c, hc, hterm⟩ := h
    simp only [List.mem_append, List.append_nil] at hc
    rcases hc with hc | hc
    · have := hu c hc
      rw [not_word_of_lineTerminator c hterm] at this
      exact Bool.noConfusion this
    · have := hu2 c hc
      simp [isDot, hterm] at this
  unfold replaceByGroup1
  rw [hnone]

theorem matchEnd_valueTail (S2 V : List Char) (hS2 : ∀ c ∈ S2, isSpace c = true)
    (hV : ∀ c ∈ V, isWordOrHyphen c = true) :
    matchEnd [⟨isColon, .one, false⟩, ⟨isSpace, .star, false⟩, ⟨isWordOrHyphen, .star, true⟩]
      (':' :: (S2 ++ V)) = some [V] := by
  have h3 : matchEnd [⟨isWordOrHyphen, .star, true⟩] V = some [V] := by
    have := matchEnd_cons_top ⟨isWordOrHyphen, .star, true⟩ [] V [] []
      (by simp [Quant.lo])
      (by
        simp only [Quant.hi, List.append_nil]
        rw [List.takeWhile_eq_self_iff.2 hV])
      matchEnd_nil_nil
    simpa using this
  have hstopV : ∀ c, V.head? = some c → isSpace c = false := by
    intro c hc
    cases V with
    | nil => simp at hc
    | cons a V =>
      simp at hc
      subst hc
      cases hs : isSpace a with
      | false => rfl
      | true =>
        have := hV a (by simp)
        rw [not_word_of_space a hs] at this
        exact Bool.noConfusion this
  have h2 := matchEnd_cons_top ⟨isSpace, .star, false⟩ [⟨isWordOrHyphen, .star, true⟩] S2 V [V]
    (by simp [Quant.lo])
    (by
      simp only [Quant.hi]
      rw [takeWhile_append_stop _ _ _ hS2 hstopV])
    h3
  have hstop : ∀ c, (S2 ++ V).head? = some c → isColon c = false := by
    intro c hc
    have hmem : c ∈ S2 ++ V := List.mem_of_mem_head? hc
    cases hcol : isColon c with
    | false => rfl
    | true =>
      rcases List.mem_append.1 hmem with hm | hm
      · have := hS2 c hm
        rw [not_space_of_colon c hcol] at this
        exact Bool.noConfusion this
      · have := hV c hm
        rw [not_word_of_colon c hcol] at this
        exact Bool.noConfusion this
  have h1 := matchEnd_cons_top ⟨isColon, .one, false⟩
    [⟨isSpace, .star, false⟩, ⟨isWordOrHyphen, .star, true⟩] [':'] (S2 ++ V) [V]
    (by simp [Quant.lo])
    (by
      simp only [Quant.hi]
      rw [takeWhile_append_stop _ _ _ (by simp [isColon]) hstop]
      rfl)
    h2
  simpa using h1

theorem not_matches_valueTail_of_no_colon (s : List Char) (hs : ∀ c ∈ s, isColon c = false) :
    ¬ Matches [⟨isColon, .one, false⟩, ⟨isSpace, .star, false⟩, ⟨isWordOrHyphen, .star, true⟩]
      s := by
  simp only [Matches, Quant.admits]
  rintro ⟨u, v, rfl, hu, hlen, -⟩
  match u, hlen, hu with
  | [a], _, hu =>
    have h1 := hu a (by simp)
    rw [hs a (by simp)] at h1
    exact Bool.noConfusion h1

theorem propertyValue_of_match (N S1 S2 V : List Char)
    (hN : ∀ c ∈ N, isWordOrHyphen c = true)
    (hS2 : ∀ c ∈ S2, isSpace c = true) (hV : ∀ c ∈ V, isWordOrHyphen c = true)
    (hdot : ∀ c ∈ S1, isLineTerminator c = false) :
    replaceByGroup1 propertyValueRegExp (N ++ S1 ++ ':' :: (S2 ++ V)) = V := by
  have hpre : ∀ c ∈ N ++ S1 ++ [':'], isDot c = true := by
    intro c hc
    simp only [List.mem_append, List.mem_singleton] at hc
    rcases hc with (hc | hc) | rfl
    · exact dot_of_word c (hN c hc)
    · simp [isDot, hdot c hc]
    · decide
  have hsplit : N ++ S1 ++ ':' :: (S2 ++ V) = (N ++ S1 ++ [':']) ++ (S2 ++ V) := by simp
  have hrun : (N ++ S1).length + 1 ≤
      ((N ++ S1 ++ ':' :: (S2 ++ V)).takeWhile isDot).length := by
    rw [hsplit]
    have := length_le_takeWhile_append isDot (N ++ S1 ++ [':']) (S2 ++ V) hpre
    simpa using this
  have hrunle := takeWhile_length_le isDot (N ++ S1 ++ ':' :: (S2 ++ V))
  have hnocolon : ∀ c ∈ S2 ++ V, isColon c = false := by
    intro c hc
    cases hcol : isColon c with
    | false => rfl
    | true =>
      rcases List.mem_append.1 hc with hm | hm
      · have := hS2 c hm
        rw [not_space_of_colon c hcol] at this
        exact Bool.noConfusion this
      · have := hV c hm
        rw [not_word_of_colon c hcol] at this
        exact Bool.noConfusion this
  have hmatch : matchEnd propertyValueRegExp (N ++ S1 ++ ':' :: (S2 ++ V)) = some [V] := by
    unfold propertyValueRegExp matchEnd
    simp only [Quant.lo, Quant.hi]
    rw [tryDown_eq_of_first _ _ _ (N ++ S1).length (Nat.zero_le _) (by omega)]
    · rw [List.drop_left, matchEnd_valueTail S2 V hS2 hV]
      rfl
    · rw [List.drop_left, matchEnd_valueTail S2 V hS2 hV]
      rfl
    · intro j h1 h2
      have hnone : matchEnd
          [⟨isColon, .one, false⟩, ⟨isSpace, .star, false⟩, ⟨isWordOrHyphen, .star, true⟩]
          ((N ++ S1 ++ ':' :: (S2 ++ V)).drop j) = none := by
        rw [matchEnd_eq_none_iff]
        apply not_matches_valueTail_of_no_colon
        intro c hc
        apply hnocolon
        have hj : j = (N ++ S1 ++ [':']).length + (j - (N ++ S1).length - 1) := by
          simp only [List.length_append, List.length_singleton] at h1 ⊢
          omega
        rw [hsplit, hj, List.drop_append] at hc
        exact List.mem_of_mem_drop hc
      rw [hnone]
      rfl
  unfold replaceByGroup1
  rw [hmatch]

theorem lookup_some_mem {β : Type} (l : List (List Char × β)) (k : List Char) (v : β)
    (h : l.lookup k = some v) : (k, v) ∈ l := by
  induction l with
  | nil => simp at h
  | cons a l ih =>
    obtain ⟨k2, v2⟩ := a
    by_cases hk : k = k2
    · subst hk
      simp [List.lookup] at h
      subst h
      simp
    · have hb : (k == k2) = false := by simpa using hk
      simp only [List.lookup, hb] at h
      exact List.mem_cons_of_mem _ (ih h)

theorem wellKnownProperties_keys_word :
    ∀ k ∈ wellKnownProperties.map Prod.fst, ∀ c ∈ k, isWordOrHyphen c = true := by
  decide

theorem objectPrototypeKeys_word :
    ∀ k ∈ objectPrototypeKeys, ∀ c ∈ k, isWordOrHyphen c = true := by
  decide

theorem wellKnownPropertiesGet_of_not_word (name : List Char)
    (h : ∃ c ∈ name, isWordOrHyphen c = false) : wellKnownPropertiesGet name = .undefined := by
  obtain ⟨c, hc, hw⟩ := h
  unfold wellKnownPropertiesGet
  cases hl : wellKnownProperties.lookup name with
  | some values =>
    have hmem := lookup_some_mem _ _ _ hl
    have hk : name ∈ wellKnownProperties.map Prod.fst := List.mem_map.2 ⟨_, hmem, rfl⟩
    have := wellKnownProperties_keys_word name hk c hc
    rw [hw] at this
    exact Bool.noConfusion this
  | none =>
    have hnot : name ∉ objectPrototypeKeys := by
      intro hk
      have := objectPrototypeKeys_word name hk c hc
      rw [hw] at this
      exact Bool.noConfusion this
    simp [hnot]

/-! ## The CSS resolver: its result in terms of the matched text -/

theorem css_of_search_none (doc : List Char) (pos : Nat)
    (h : search cssPropertyRegExp (doc.take pos) = none) :
    cssContextCompletions ⟨doc, pos⟩ = .ok none := by
  unfold cssContextCompletions CompletionContext.matchBefore
  simp only [h]

/-- The result of the CSS resolver when the match before the cursor is the text
`N S1 : S2 V`: property name `N`, white space `S1` and `S2`, partial value `V`. -/
theorem css_of_search_some (doc : List Char) (pos i : Nat) (N S1 S2 V : List Char)
    (hs : search cssPropertyRegExp (doc.take pos) = some i)
    (ht : (doc.take pos).drop i = N ++ S1 ++ ':' :: (S2 ++ V)) (hne : N ≠ [])
    (hN : ∀ c ∈ N, isWordOrHyphen c = true) (hS1 : ∀ c ∈ S1, isSpace c = true)
    (hS2 : ∀ c ∈ S2, isSpace c = true) (hV : ∀ c ∈ V, isWordOrHyphen c = true) :
    cssContextCompletions ⟨doc, pos⟩ =
      if ∀ c ∈ S1 ++ S2, isLineTerminator c = false then
        match wellKnownPropertiesGet N with
        | .undefined => .ok none
        | .inherited => .error .typeError
        | .array values =>
          .ok (some { «from» := (pos : Int) - (V.length : Int),
                      options := mapWithIndexFrom toOption 0 values })
      else .ok none := by
  unfold cssContextCompletions CompletionContext.matchBefore
  simp only [hs, sliceDoc_eq, ht]
  by_cases hdot : ∀ c ∈ S1 ++ S2, isLineTerminator c = false
  · rw [if_pos hdot, propertyName_of_match N S1 S2 V hne hN hS1 hV hdot,
      propertyValue_of_match N S1 S2 V hN hS2 hV
        (fun c hc => hdot c (List.mem_append_left _ hc))]
  · rw [if_neg hdot]
    have hterm : ∃ c ∈ N ++ S1 ++ ':' :: (S2 ++ V), isLineTerminator c = true := by
      simp only [not_forall, Bool.not_eq_false] at hdot
      obtain ⟨c, hc, hterm⟩ := hdot
      refine ⟨c, ?_, hterm⟩
      simp only [List.mem_append, List.mem_cons] at hc ⊢
      tauto
    rw [propertyName_of_lineTerminator _ hterm,
      wellKnownPropertiesGet_of_not_word _ ⟨':', by simp, by decide⟩]

theorem search_css_some (s : List Char) (i : Nat) (h : search cssPropertyRegExp s = some i) :
    ∃ N S1 S2 V, s.drop i = N ++ S1 ++ ':' :: (S2 ++ V) ∧ N ≠ [] ∧
      (∀ c ∈ N, isWordOrHyphen c = true) ∧ (∀ c ∈ S1, isSpace c = true) ∧
      (∀ c ∈ S2, isSpace c = true) ∧ (∀ c ∈ V, isWordOrHyphen c = true) := by
  unfold search at h
  rw [searchFrom_eq_some_iff] at h
  obtain ⟨d, hd, -, hm, -⟩ := h
  have hid : i = d := by omega
  subst hid
  exact (matches_cssPropertyRegExp _).1 hm

theorem search_css_none (s : List Char)
    (h : ¬ ∃ pre N S1 S2 V, s = pre ++ (N ++ S1 ++ ':' :: (S2 ++ V)) ∧ N ≠ [] ∧
      (∀ c ∈ N, isWordOrHyphen c = true) ∧ (∀ c ∈ S1, isSpace c = true) ∧
      (∀ c ∈ S2, isSpace c = true) ∧ (∀ c ∈ V, isWordOrHyphen c = true)) :
    search cssPropertyRegExp s = none := by
  cases hs : search cssPropertyRegExp s with
  | none => rfl
  | some i =>
    obtain ⟨N, S1, S2, V, ht, hrest⟩ := search_css_some s i hs
    exact absurd ⟨s.take i, N, S1, S2, V, by rw [← ht, List.take_append_drop], hrest⟩ h

theorem not_css_pattern_of_no_colon (s : List Char) (h : ':' ∉ s) :
    ¬ ∃ pre N S1 S2 V, s = pre ++ (N ++ S1 ++ ':' :: (S2 ++ V)) ∧ N ≠ [] ∧
      (∀ c ∈ N, isWordOrHyphen c = true) ∧ (∀ c ∈ S1, isSpace c = true) ∧
      (∀ c ∈ S2, isSpace c = true) ∧ (∀ c ∈ V, isWordOrHyphen c = true) := by
  rintro ⟨pre, N, S1, S2, V, rfl, -⟩
  exact h (by simp)

/-! ## The CSS resolver: the claims -/

/-- C8: when the text before the cursor does not end with one or more word or hyphen
characters, optional white space, a colon, optional white space and zero or more word
or hyphen characters, `cssContextCompletions` returns `null`. -/
theorem css_null_of_no_match (doc : List Char) (pos : Nat)
    (h : ¬ ∃ pre N S1 S2 V, doc.take pos = pre ++ (N ++ S1 ++ ':' :: (S2 ++ V)) ∧ N ≠ [] ∧
      (∀ c ∈ N, isWordOrHyphen c = true) ∧ (∀ c ∈ S1, isSpace c = true) ∧
      (∀ c ∈ S2, isSpace c = true) ∧ (∀ c ∈ V, isWordOrHyphen c = true)) :
    cssContextCompletions ⟨doc, pos⟩ = .ok none :=
  css_of_search_none doc pos (search_css_none _ h)

/-- Witness of C8: the document `display`, which has no colon; the empty document and
`display: fl;` give `null` as well. -/
theorem css_null_of_no_match_witness :
    cssContextCompletions ⟨"display".toList, 7⟩ = .ok none ∧
      cssContextCompletions ⟨[], 0⟩ = .ok none ∧
      cssContextCompletions ⟨"display: fl;".toList, 12⟩ = .ok none :=
  ⟨css_null_of_no_match "display".toList 7 (not_css_pattern_of_no_colon _ (by decide)),
   rfl, rfl⟩

/-- C10: for every result of `cssContextCompletions` with the cursor inside the
document, the extracted partial value `V` is the maximal trailing run of word or hyphen
characters of the text before the cursor, it follows the colon and its optional white
space, `from` is the cursor minus the length of `V`, and the range from `from` to the
cursor holds word or hyphen characters only: no colon and no white space. -/
theorem css_from_spec (doc : List Char) (pos : Nat) (r : CompletionResult)
    (hpos : pos ≤ doc.length) (h : cssContextCompletions ⟨doc, pos⟩ = .ok (some r)) :
    ∃ found pre S2 V,
      CompletionContext.matchBefore ⟨doc, pos⟩ cssPropertyRegExp = some ⟨found, pos⟩ ∧
      replaceByGroup1 propertyValueRegExp
        (CompletionContext.sliceDoc ⟨doc, pos⟩ found pos) = V ∧
      doc.take pos = pre ++ ':' :: (S2 ++ V) ∧
      (∀ c ∈ S2, isSpace c = true) ∧
      V = ((doc.take pos).reverse.takeWhile isWordOrHyphen).reverse ∧
      r.from = (pos : Int) - (V.length : Int) ∧
      ∀ j : Nat, r.from ≤ (j : Int) → j < pos →
        ∃ c, doc[j]? = some c ∧ isWordOrHyphen c = true ∧ isColon c = false ∧
          isSpace c = false := by
  cases hs : search cssPropertyRegExp (doc.take pos) with
  | none =>
    rw [css_of_search_none doc pos hs] at h
    injection h with h
    exact Option.noConfusion h
  | some i =>
    obtain ⟨N, S1, S2, V, ht, hne, hN, hS1, hS2, hV⟩ := search_css_some _ i hs
    rw [css_of_search_some doc pos i N S1 S2 V hs ht hne hN hS1 hS2 hV] at h
    by_cases hdot : ∀ c ∈ S1 ++ S2, isLineTerminator c = false
    · rw [if_pos hdot] at h
      cases hg : wellKnownPropertiesGet N with
      | undefined =>
        rw [hg] at h
        injection h with h
        exact Option.noConfusion h
      | inherited =>
        rw [hg] at h
        exact Except.noConfusion h
      | array values =>
        rw [hg] at h
        injection h with h
        injection h with h
        subst h
        have htake : doc.take pos = ((doc.take pos).take i ++ N ++ S1) ++ ':' :: (S2 ++ V) := by
          conv_lhs => rw [← List.take_append_drop i (doc.take pos), ht]
          simp
        have hA : doc.take pos = ((doc.take pos).take i ++ N ++ S1 ++ ':' :: S2) ++ V := by
          conv_lhs => rw [htake]
          simp
        have hX : ((doc.take pos).take i ++ N ++ S1 ++ ':' :: S2).reverse =
            S2.reverse ++ ':' :: ((doc.take pos).take i ++ N ++ S1).reverse := by
          simp
        have hstop : ∀ c, ((doc.take pos).take i ++ N ++ S1 ++ ':' :: S2).reverse.head?
            = some c → isWordOrHyphen c = false := by
          intro c hc
          rw [hX] at hc
          cases hr : S2.reverse with
          | nil =>
            rw [hr] at hc
            simp at hc
            subst hc
            decide
          | cons a R =>
            rw [hr] at hc
            simp at hc
            subst hc
            have : a ∈ S2 := by
              rw [← List.mem_reverse, hr]
              simp
            exact not_word_of_space _ (hS2 _ this)
        have hVrun : V = ((doc.take pos).reverse.takeWhile isWordOrHyphen).reverse := by
          conv_rhs => rw [hA]
          rw [List.reverse_append, takeWhile_append_stop isWordOrHyphen V.reverse _
            (fun c hc => hV c (List.mem_reverse.1 hc)) hstop, List.reverse_reverse]
        refine ⟨i, (doc.take pos).take i ++ N ++ S1, S2, V, ?_, ?_, htake, hS2, hVrun, rfl, ?_⟩
        · unfold CompletionContext.matchBefore
          simp only [hs]
        · rw [sliceDoc_eq, ht]
          exact propertyValue_of_match N S1 S2 V hN hS2 hV
            (fun c hc => hdot c (List.mem_append_left _ hc))
        · intro j hj1 hj2
          have hlen : pos = ((doc.take pos).take i ++ N ++ S1 ++ ':' :: S2).length + V.length := by
            have := congrArg List.length htake
            simp only [List.length_take, List.length_append, List.length_cons] at this ⊢
            omega
          simp only at hj1
          have hjA : ((doc.take pos).take i ++ N ++ S1 ++ ':' :: S2).length ≤ j := by
            omega
          have hget : doc[j]? = V[j - ((doc.take pos).take i ++ N ++ S1 ++ ':' :: S2).length]? := by
            rw [← List.getElem?_take_of_lt hj2]
            conv_lhs => rw [hA]
            rw [List.getElem?_append_right hjA]
          have hjV : j - ((doc.take pos).take i ++ N ++ S1 ++ ':' :: S2).length < V.length := by
            omega
          have hmem := List.getElem_mem hjV
          have hw := hV _ hmem
          refine ⟨_, by rw [hget]; exact List.getElem?_eq_getElem hjV, hw, ?_, ?_⟩
          · cases hc : isColon (V[j - ((doc.take pos).take i ++ N ++ S1 ++ ':' :: S2).length])
            · rfl
            · rw [not_word_of_colon _ hc] at hw
              exact Bool.noConfusion hw
          · cases hc : isSpace (V[j - ((doc.take pos).take i ++ N ++ S1 ++ ':' :: S2).length])
            · rfl
            · rw [not_word_of_space _ hc] at hw
              exact Bool.noConfusion hw
    · rw [if_neg hdot] at h
      injection h with h
      exact Option.noConfusion h

/-- Witness of C10: the document `display:   fl` with the cursor at its end, where
`from` is the cursor minus 2. -/
theorem css_from_spec_witness :
    ∃ found pre S2 V,
      CompletionContext.matchBefore ⟨"display:   fl".toList, 13⟩ cssPropertyRegExp =
        some ⟨found, 13⟩ ∧
      replaceByGroup1 propertyValueRegExp
        (CompletionContext.sliceDoc ⟨"display:   fl".toList, 13⟩ found 13) = V ∧
      "display:   fl".toList.take 13 = pre ++ ':' :: (S2 ++ V) ∧
      (∀ c ∈ S2, isSpace c = true) ∧
      V = (("display:   fl".toList.take 13).reverse.takeWhile isWordOrHyphen).reverse ∧
      (⟨13 - 2, mapWithIndexFrom toOption 0 (["block", "inline-block", "flex", "inline-flex", "grid", "inline-grid",
          "none"].map String.toList)⟩ : CompletionResult).from =
        ((13 : Nat) : Int) - (V.length : Int) ∧
      ∀ j : Nat,
        (⟨13 - 2, mapWithIndexFrom toOption 0 (["block", "inline-block", "flex", "inline-flex", "grid", "inline-grid",
          "none"].map String.toList)⟩ : CompletionResult).from ≤ (j : Int) →
        j < 13 →
        ∃ c, ("display:   fl".toList)[j]? = some c ∧ isWordOrHyphen c = true ∧
          isColon c = false ∧ isSpace c = false :=
  css_from_spec "display:   fl".toList 13
    ⟨13 - 2, mapWithIndexFrom toOption 0 (["block", "inline-block", "flex", "inline-flex", "grid", "inline-grid",
          "none"].map String.toList)⟩ (by decide) rfl

/-! ## The CSS resolver: where the code departs from the claims -/

/-- C2, at the input `display: fl` with the cursor at the end: `cssContextCompletions`
returns all seven values of `display`, although `flex` is the only one that starts
with the partial value `fl`. -/
theorem css_display_fl_unfiltered :
    cssContextCompletions ⟨"display: fl".toList, 11⟩ =
        .ok (some ⟨9, mapWithIndexFrom toOption 0 (["block", "inline-block", "flex", "inline-flex", "grid", "inline-grid",
          "none"].map String.toList)⟩) ∧
      (mapWithIndexFrom toOption 0 (["block", "inline-block", "flex", "inline-flex", "grid", "inline-grid",
          "none"].map String.toList)).map Completion.label = ["block", "inline-block", "flex", "inline-flex", "grid", "inline-grid",
          "none"].map String.toList ∧
      (["block", "inline-block", "flex", "inline-flex", "grid", "inline-grid",
          "none"].map String.toList).filter (fun value => "fl".toList.isPrefixOf value) = ["flex".toList] :=
  ⟨rfl, by decide, by decide⟩

/-- C3, at the input `display: fl` with the cursor at the end: the text between `from`
and the cursor is `fl`, and the first option of the result of `cssContextCompletions`
has the label `block`, of which `fl` is no prefix. -/
theorem css_prefix_invariant_fails :
    ∃ r o, cssContextCompletions ⟨"display: fl".toList, 11⟩ = .ok (some r) ∧
      r.from = 9 ∧
      CompletionContext.sliceDoc ⟨"display: fl".toList, 11⟩ 9 11 = "fl".toList ∧
      o ∈ r.options ∧ o.label = "block".toList ∧
      (CompletionContext.sliceDoc ⟨"display: fl".toList, 11⟩ 9 11).isPrefixOf o.label =
        false :=
  ⟨⟨9, mapWithIndexFrom toOption 0 (["block", "inline-block", "flex", "inline-flex", "grid", "inline-grid",
          "none"].map String.toList)⟩, ⟨"block".toList, "value", 99⟩, rfl, rfl,
    by decide, by decide, rfl, by decide⟩

/-- C4, at the inputs `constructor: a`, `toString: a` and `__proto__: a` with the
cursor at the end: the names are no keys of `wellKnownProperties`, and
`cssContextCompletions` raises a `TypeError` where the claim has `null`. -/
theorem css_inherited_name_raises :
    wellKnownProperties.lookup "constructor".toList = none ∧
      cssContextCompletions ⟨"constructor: a".toList, 14⟩ = .error .typeError ∧
      wellKnownProperties.lookup "toString".toList = none ∧
      cssContextCompletions ⟨"toString: a".toList, 11⟩ = .error .typeError ∧
      wellKnownProperties.lookup "__proto__".toList = none ∧
      cssContextCompletions ⟨"__proto__: a".toList, 12⟩ = .error .typeError :=
  ⟨by decide, rfl, by decide, rfl, by decide, rfl⟩

/-- C5, at the document `a { valueOf:` with the cursor at the end:
`cssContextCompletions` does not return, it raises a `TypeError`. -/
theorem css_raises_on_document :
    cssContextCompletions ⟨"a \x7b valueOf:".toList, 12⟩ = .error .typeError ∧
      ∀ result, cssContextCompletions ⟨"a \x7b valueOf:".toList, 12⟩ ≠ .ok result := by
  refine ⟨rfl, ?_⟩
  intro result h
  have h2 : cssContextCompletions ⟨"a \x7b valueOf:".toList, 12⟩ = .error .typeError := rfl
  rw [h2] at h
  exact Except.noConfusion h

/-- C6, at the input `display: zzz` with the cursor at the end: no value of `display`
starts with `zzz`, and `cssContextCompletions` returns a result with all seven values
where the claim has `null`. -/
theorem css_display_zzz_not_null :
    (["block", "inline-block", "flex", "inline-flex", "grid", "inline-grid",
          "none"].map String.toList).filter (fun value => "zzz".toList.isPrefixOf value) = [] ∧
      cssContextCompletions ⟨"display: zzz".toList, 12⟩ =
        .ok (some ⟨9, mapWithIndexFrom toOption 0 (["block", "inline-block", "flex", "inline-flex", "grid", "inline-grid",
          "none"].map String.toList)⟩) ∧
      (mapWithIndexFrom toOption 0 (["block", "inline-block", "flex", "inline-flex", "grid", "inline-grid",
          "none"].map String.toList)).length = 7 :=
  ⟨by decide, rfl, by decide⟩

/-! ## The CSS resolver: the leftmost match starts at the start of the name -/

theorem append_colon_unique (A B A2 B2 : List Char) (hB : ':' ∉ B) (hB2 : ':' ∉ B2)
    (h : A ++ ':' :: B = A2 ++ ':' :: B2) : A = A2 ∧ B = B2 := by
  rcases List.append_eq_append_iff.1 h with ⟨a, h1, h2⟩ | ⟨a, h1, h2⟩
  · cases a with
    | nil =>
      simp only [List.nil_append, List.cons.injEq, true_and] at h2
      exact ⟨by simpa using h1.symm, h2⟩
    | cons x a =>
      simp only [List.cons_append, List.cons.injEq] at h2
      exact absurd (by rw [h2.2]; simp) hB
  · cases a with
    | nil =>
      simp only [List.nil_append, List.cons.injEq, true_and] at h2
      exact ⟨by simpa using h1, h2.symm⟩
    | cons x a =>
      simp only [List.cons_append, List.cons.injEq] at h2
      exact absurd (by rw [h2.2]; simp) hB2

theorem no_colon_of_space_word (S V : List Char) (hS : ∀ c ∈ S, isSpace c = true)
    (hV : ∀ c ∈ V, isWordOrHyphen c = true) : ':' ∉ S ++ V := by
  intro hmem
  rcases List.mem_append.1 hmem with hm | hm
  · have := hS _ hm
    revert this
    decide
  · have := hV _ hm
    revert this
    decide

/-- The leftmost match of the CSS expression starts where the whole run of word or
hyphen characters before the colon starts. -/
theorem search_cssPropertyRegExp (pre N S1 S2 V : List Char)
    (hpre : ∀ c, pre.getLast? = some c → isWordOrHyphen c = false) (hne : N ≠ [])
    (hN : ∀ c ∈ N, isWordOrHyphen c = true) (hS1 : ∀ c ∈ S1, isSpace c = true)
    (hS2 : ∀ c ∈ S2, isSpace c = true) (hV : ∀ c ∈ V, isWordOrHyphen c = true) :
    search cssPropertyRegExp (pre ++ (N ++ S1 ++ ':' :: (S2 ++ V))) = some pre.length := by
  unfold search
  rw [searchFrom_eq_some_iff]
  refine ⟨pre.length, by omega, by simp, ?_, ?_⟩
  · rw [List.drop_left, matches_cssPropertyRegExp]
    exact ⟨N, S1, S2, V, rfl, hne, hN, hS1, hS2, hV⟩
  · intro e he hm
    rw [matches_cssPropertyRegExp] at hm
    obtain ⟨N2, T1, T2, V2, heq, -, hN2, hT1, hT2, hV2⟩ := hm
    rw [List.drop_append_of_le_length (by omega)] at heq
    have hXne : pre.drop e ≠ [] := by
      intro hnil
      have := congrArg List.length hnil
      simp only [List.length_drop, List.length_nil] at this
      omega
    obtain ⟨X0, c, hX⟩ : ∃ X0 c, pre.drop e = X0 ++ [c] :=
      ⟨(pre.drop e).dropLast, (pre.drop e).getLast hXne,
        (List.dropLast_append_getLast hXne).symm⟩
    have hc : isWordOrHyphen c = false := by
      apply hpre
      have hsuf : pre = pre.take e ++ X0 ++ [c] := by
        rw [List.append_assoc, ← hX, List.take_append_drop]
      rw [hsuf]
      simp
    have h2 : (pre.drop e ++ N ++ S1) ++ ':' :: (S2 ++ V) = (N2 ++ T1) ++ ':' :: (T2 ++ V2) := by
      simpa [List.append_assoc] using heq
    have h3 := (append_colon_unique _ _ _ _ (no_colon_of_space_word S2 V hS2 hV)
      (no_colon_of_space_word T2 V2 hT2 hV2) h2).1
    rw [hX] at h3
    have h4 : (X0 ++ [c]) ++ (N ++ S1) = N2 ++ T1 := by
      simpa [List.append_assoc] using h3
    rcases List.append_eq_append_iff.1 h4 with ⟨a, h5, -⟩ | ⟨a, -, h6⟩
    · have := hN2 c (by rw [h5]; simp)
      rw [hc] at this
      exact Bool.noConfusion this
    · cases N with
      | nil => exact hne rfl
      | cons n N =>
        have hs := hT1 n (by rw [h6]; simp)
        have hw := hN n (by simp)
        rw [not_word_of_space n hs] at hw
        exact Bool.noConfusion hw

/-- The result of the CSS resolver in terms of the text before the cursor: the whole
name `N`, white space `S1`, the colon, white space `S2` and the partial value `V`,
the character before `N`, if any, being no word character and no hyphen.  The options
are all values of the property: the partial value `V` decides `from` only. -/
theorem css_of_text (doc : List Char) (pos : Nat) (pre N S1 S2 V : List Char)
    (h : doc.take pos = pre ++ (N ++ S1 ++ ':' :: (S2 ++ V)))
    (hpre : ∀ c, pre.getLast? = some c → isWordOrHyphen c = false) (hne : N ≠ [])
    (hN : ∀ c ∈ N, isWordOrHyphen c = true) (hS1 : ∀ c ∈ S1, isSpace c = true)
    (hS2 : ∀ c ∈ S2, isSpace c = true) (hV : ∀ c ∈ V, isWordOrHyphen c = true) :
    cssContextCompletions ⟨doc, pos⟩ =
      if ∀ c ∈ S1 ++ S2, isLineTerminator c = false then
        match wellKnownPropertiesGet N with
        | .undefined => .ok none
        | .inherited => .error .typeError
        | .array values =>
          .ok (some { «from» := (pos : Int) - (V.length : Int),
                      options := mapWithIndexFrom toOption 0 values })
      else .ok none := by
  have hs : search cssPropertyRegExp (doc.take pos) = some pre.length := by
    rw [h]
    exact search_cssPropertyRegExp pre N S1 S2 V hpre hne hN hS1 hS2 hV
  exact css_of_search_some doc pos pre.length N S1 S2 V hs (by rw [h, List.drop_left])
    hne hN hS1 hS2 hV

/-- A property name that the table does not declare and that is not inherited from
`Object.prototype` gives `null`. -/
theorem css_null_of_unknown_name (doc : List Char) (pos : Nat) (pre N S1 S2 V : List Char)
    (h : doc.take pos = pre ++ (N ++ S1 ++ ':' :: (S2 ++ V)))
    (hpre : ∀ c, pre.getLast? = some c → isWordOrHyphen c = false) (hne : N ≠ [])
    (hN : ∀ c ∈ N, isWordOrHyphen c = true) (hS1 : ∀ c ∈ S1, isSpace c = true)
    (hS2 : ∀ c ∈ S2, isSpace c = true) (hV : ∀ c ∈ V, isWordOrHyphen c = true)
    (hkey : wellKnownProperties.lookup N = none) (hproto : N ∉ objectPrototypeKeys) :
    cssContextCompletions ⟨doc, pos⟩ = .ok none := by
  rw [css_of_text doc pos pre N S1 S2 V h hpre hne hN hS1 hS2 hV]
  have hg : wellKnownPropertiesGet N = .undefined := by
    unfold wellKnownPropertiesGet
    rw [hkey]
    simp [hproto]
  rw [hg]
  split <;> rfl

/-- A declared property name gives all its values, whatever the partial value is. -/
theorem css_all_values_of_known_name (doc : List Char) (pos : Nat)
    (pre N S1 S2 V : List Char) (values : List (List Char))
    (h : doc.take pos = pre ++ (N ++ S1 ++ ':' :: (S2 ++ V)))
    (hpre : ∀ c, pre.getLast? = some c → isWordOrHyphen c = false) (hne : N ≠ [])
    (hN : ∀ c ∈ N, isWordOrHyphen c = true) (hS1 : ∀ c ∈ S1, isSpace c = true)
    (hS2 : ∀ c ∈ S2, isSpace c = true) (hV : ∀ c ∈ V, isWordOrHyphen c = true)
    (hdot : ∀ c ∈ S1 ++ S2, isLineTerminator c = false)
    (hkey : wellKnownProperties.lookup N = some values) :
    cssContextCompletions ⟨doc, pos⟩ =
      .ok (some { «from» := (pos : Int) - (V.length : Int),
                  options := mapWithIndexFrom toOption 0 values }) := by
  rw [css_of_text doc pos pre N S1 S2 V h hpre hne hN hS1 hS2 hV, if_pos hdot]
  have hg : wellKnownPropertiesGet N = .array values := by
    unfold wellKnownPropertiesGet
    rw [hkey]
  rw [hg]

/-! ## What holds of the HTML resolver in the claims on both resolvers -/

theorem type_of_mem_mapWithIndexFrom (n : Nat) (values : List (List Char)) :
    ∀ o ∈ mapWithIndexFrom toOption n values, o.type = "value" := by
  induction values generalizing n with
  | nil => intro o ho; simp [mapWithIndexFrom] at ho
  | cons v vs ih =>
    intro o ho
    simp only [mapWithIndexFrom, List.mem_cons] at ho
    rcases ho with rfl | ho
    · rfl
    · exact ih _ o ho

/-- The HTML half of the prefix-completion invariant: with the cursor inside the
document, the text between `from` and the cursor is a prefix of the label of every
option of `htmlContextCompletions`. -/
theorem html_prefix_invariant (st : State) (doc : List Char) (pos : Nat)
    (r : CompletionResult) (hpos : pos ≤ doc.length)
    (h : htmlContextCompletions st ⟨doc, pos⟩ = some r) :
    ∃ P : List Char, r.from = (pos : Int) - (P.length : Int) ∧
      CompletionContext.sliceDoc ⟨doc, pos⟩ (pos - P.length) pos = P ∧
      ∀ o ∈ r.options, P <+: o.label := by
  by_cases hm : ∃ pre P, doc.take pos = pre ++ '<' :: P ∧ ∀ c ∈ P, isWordOrHyphen c = true
  · obtain ⟨pre, P, ht, hP⟩ := hm
    rw [html_of_match st doc pos pre P ht hP] at h
    split at h
    · exact Option.noConfusion h
    · injection h with h
      subst h
      refine ⟨P, rfl, ?_, ?_⟩
      · rw [sliceDoc_eq, ht]
        have hsplit : pre ++ '<' :: P = (pre ++ ['<']) ++ P := by simp
        rw [hsplit]
        have hlen : pos = pre.length + (1 + P.length) := by
          have := congrArg List.length ht
          simp only [List.length_take, List.length_append, List.length_cons] at this
          omega
        apply List.drop_left'
        rw [List.length_append, List.length_singleton]
        omega
      · intro o ho
        have hl : o.label ∈ (mapWithIndexFrom toOption 0
            (st.wellKnownHtmlTags.filter (fun each => P.isPrefixOf each))).map
              Completion.label := List.mem_map.2 ⟨o, ho, rfl⟩
        rw [map_label_mapWithIndexFrom] at hl
        exact List.isPrefixOf_iff_prefix.1 (List.mem_filter.1 hl).2
  · rw [html_of_no_match st doc pos hm] at h
    exact Option.noConfusion h

/-- The HTML half of totality: a result of `htmlContextCompletions` has a list of
options that is not empty, each of the kind `value`. -/
theorem html_result_well_formed (st : State) (doc : List Char) (pos : Nat)
    (r : CompletionResult) (h : htmlContextCompletions st ⟨doc, pos⟩ = some r) :
    r.options ≠ [] ∧ ∀ o ∈ r.options, o.type = "value" := by
  by_cases hm : ∃ pre P, doc.take pos = pre ++ '<' :: P ∧ ∀ c ∈ P, isWordOrHyphen c = true
  · obtain ⟨pre, P, ht, hP⟩ := hm
    rw [html_of_match st doc pos pre P ht hP] at h
    split at h
    · exact Option.noConfusion h
    · rename_i hlen
      injection h with h
      subst h
      refine ⟨?_, type_of_mem_mapWithIndexFrom 0 _⟩
      intro hnil
      apply hlen
      have := congrArg List.length hnil
      simpa [length_mapWithIndexFrom] using this
  · rw [html_of_no_match st doc pos hm] at h
    exact Option.noConfusion h

/-! ## The shape of every result -/

/-- Every result of the HTML resolver comes from a match `<` and `P` before the
cursor and from the entries that start with `P`. -/
theorem html_some_inv (st : State) (doc : List Char) (pos : Nat) (r : CompletionResult)
    (h : htmlContextCompletions st ⟨doc, pos⟩ = some r) :
    ∃ pre P, doc.take pos = pre ++ '<' :: P ∧ (∀ c ∈ P, isWordOrHyphen c = true) ∧
      st.wellKnownHtmlTags.filter (fun each => P.isPrefixOf each) ≠ [] ∧
      r = { «from» := (pos : Int) - (P.length : Int),
            options := mapWithIndexFrom toOption 0
              (st.wellKnownHtmlTags.filter (fun each => P.isPrefixOf each)) } := by
  by_cases hm : ∃ pre P, doc.take pos = pre ++ '<' :: P ∧ ∀ c ∈ P, isWordOrHyphen c = true
  · obtain ⟨pre, P, ht, hP⟩ := hm
    rw [html_of_match st doc pos pre P ht hP] at h
    split at h
    · exact Option.noConfusion h
    · rename_i hlen
      injection h with h
      refine ⟨pre, P, ht, hP, ?_, h.symm⟩
      intro hnil
      exact hlen (by rw [hnil]; rfl)
  · rw [html_of_no_match st doc pos hm] at h
    exact Option.noConfusion h

/-- Every result of the CSS resolver comes from a match `N S1 : S2 V` before the
cursor without a line terminator, the name `N` having the array `values`. -/
theorem css_some_inv (doc : List Char) (pos : Nat) (r : CompletionResult)
    (h : cssContextCompletions ⟨doc, pos⟩ = .ok (some r)) :
    ∃ i N S1 S2 V values, search cssPropertyRegExp (doc.take pos) = some i ∧
      (doc.take pos).drop i = N ++ S1 ++ ':' :: (S2 ++ V) ∧ N ≠ [] ∧
      (∀ c ∈ N, isWordOrHyphen c = true) ∧ (∀ c ∈ S1, isSpace c = true) ∧
      (∀ c ∈ S2, isSpace c = true) ∧ (∀ c ∈ V, isWordOrHyphen c = true) ∧
      (∀ c ∈ S1 ++ S2, isLineTerminator c = false) ∧
      wellKnownPropertiesGet N = .array values ∧
      r = { «from» := (pos : Int) - (V.length : Int),
            options := mapWithIndexFrom toOption 0 values } := by
  cases hs : search cssPropertyRegExp (doc.take pos) with
  | none =>
    rw [css_of_search_none doc pos hs] at h
    injection h with h
    exact Option.noConfusion h
  | some i =>
    obtain ⟨N, S1, S2, V, ht, hne, hN, hS1, hS2, hV⟩ := search_css_some _ i hs
    rw [css_of_search_some doc pos i N S1 S2 V hs ht hne hN hS1 hS2 hV] at h
    by_cases hdot : ∀ c ∈ S1 ++ S2, isLineTerminator c = false
    · rw [if_pos hdot] at h
      cases hg : wellKnownPropertiesGet N with
      | undefined =>
        rw [hg] at h
        injection h with h
        exact Option.noConfusion h
      | inherited =>
        rw [hg] at h
        exact Except.noConfusion h
      | array values =>
        rw [hg] at h
        injection h with h
        injection h with h
        exact ⟨i, N, S1, S2, V, values, rfl, ht, hne, hN, hS1, hS2, hV, hdot, hg, h.symm⟩
    · rw [if_neg hdot] at h
      injection h with h
      exact Option.noConfusion h

theorem getElem?_mapWithIndexFrom (n : Nat) (values : List (List Char)) (i : Nat)
    (o : Completion) (h : (mapWithIndexFrom toOption n values)[i]? = some o) :
    o.boost = 99 - ((n + i : Nat) : Int) ∧ o.type = "value" ∧ values[i]? = some o.label := by
  induction values generalizing n i with
  | nil => simp [mapWithIndexFrom] at h
  | cons v vs ih =>
    cases i with
    | zero =>
      simp only [mapWithIndexFrom, List.getElem?_cons_zero, Option.some.injEq] at h
      subst h
      simp [toOption]
    | succ i =>
      simp only [mapWithIndexFrom, List.getElem?_cons_succ] at h
      have := ih (n + 1) i h
      refine ⟨?_, this.2.1, by simpa using this.2.2⟩
      rw [this.1]
      congr 2
      omega

/-- The options built by `map` are ranked by position: `99 - i` and kind `value` at
position `i`, so the boosts fall strictly, start at 99 and are negative from position
100 on. -/
theorem ranked_mapWithIndexFrom (values : List (List Char)) :
    (∀ (i : Nat) (o : Completion), (mapWithIndexFrom toOption 0 values)[i]? = some o →
        o.boost = 99 - (i : Int) ∧ o.type = "value") ∧
      (∀ (i j : Nat) (oi oj : Completion), i < j → (mapWithIndexFrom toOption 0 values)[i]? = some oi →
        (mapWithIndexFrom toOption 0 values)[j]? = some oj → oj.boost < oi.boost) ∧
      (∀ o : Completion, (mapWithIndexFrom toOption 0 values)[0]? = some o → o.boost = 99) ∧
      (∀ (i : Nat) (o : Completion), 100 ≤ i → (mapWithIndexFrom toOption 0 values)[i]? = some o → o.boost < 0) := by
  have hb : ∀ (i : Nat) (o : Completion),
      (mapWithIndexFrom toOption 0 values)[i]? = some o →
      o.boost = 99 - (i : Int) ∧ o.type = "value" := by
    intro i o h
    have := getElem?_mapWithIndexFrom 0 values i o h
    refine ⟨?_, this.2.1⟩
    rw [this.1]
    simp
  refine ⟨hb, ?_, ?_, ?_⟩
  · intro i j oi oj hij hi hj
    rw [(hb i oi hi).1, (hb j oj hj).1]
    omega
  · intro o h
    rw [(hb 0 o h).1]
    simp
  · intro i o hi h
    rw [(hb i o h).1]
    omega

/-! ## Claims on both resolvers -/

/-- C11: every result of `htmlContextCompletions` and of `cssContextCompletions`
has `0 <= from` and `from <=` the cursor offset. -/
theorem from_bounds :
    (∀ (st : State) (doc : List Char) (pos : Nat) (r : CompletionResult),
        htmlContextCompletions st ⟨doc, pos⟩ = some r → 0 ≤ r.from ∧ r.from ≤ (pos : Int)) ∧
      (∀ (doc : List Char) (pos : Nat) (r : CompletionResult),
        cssContextCompletions ⟨doc, pos⟩ = .ok (some r) →
          0 ≤ r.from ∧ r.from ≤ (pos : Int)) := by
  constructor
  · intro st doc pos r h
    obtain ⟨pre, P, ht, -, -, hr⟩ := html_some_inv st doc pos r h
    subst hr
    have hlen : (doc.take pos).length ≤ pos := List.length_take_le pos doc
    rw [ht] at hlen
    simp only [List.length_append, List.length_cons] at hlen
    constructor
    · simp only
      omega
    · simp only
      omega
  · intro doc pos r h
    obtain ⟨i, N, S1, S2, V, values, -, ht, -, -, -, -, -, -, -, hr⟩ := css_some_inv doc pos r h
    subst hr
    have hlen : (doc.take pos).length ≤ pos := List.length_take_le pos doc
    have hd : ((doc.take pos).drop i).length ≤ (doc.take pos).length := by
      rw [List.length_drop]
      omega
    rw [ht] at hd
    simp only [List.length_append, List.length_cons] at hd
    constructor
    · simp only
      omega
    · simp only
      omega

/-- Witness of C11: the results for `a <di` and for `display:   fl`, the cursor at
the end, have `from` 3 of 5 and 11 of 13. -/
theorem from_bounds_witness :
    (htmlContextCompletions initialState ⟨"a <di".toList, 5⟩ =
        some ⟨3, [⟨"div".toList, "value", 99⟩]⟩ ∧
      (0 : Int) ≤ 3 ∧ (3 : Int) ≤ ((5 : Nat) : Int)) ∧
    (cssContextCompletions ⟨"display:   fl".toList, 13⟩ =
        .ok (some ⟨11, mapWithIndexFrom toOption 0 (["block", "inline-block", "flex", "inline-flex",
          "grid", "inline-grid", "none"].map String.toList)⟩) ∧
      (0 : Int) ≤ 11 ∧ (11 : Int) ≤ ((13 : Nat) : Int)) :=
  ⟨⟨by decide,
    from_bounds.1 initialState "a <di".toList 5 ⟨3, [⟨"div".toList, "value", 99⟩]⟩
      (by decide)⟩,
   ⟨rfl,
    from_bounds.2 "display:   fl".toList 13
      ⟨11, mapWithIndexFrom toOption 0 (["block", "inline-block", "flex", "inline-flex",
          "grid", "inline-grid", "none"].map String.toList)⟩ rfl⟩⟩

/-- C12: in every result of either resolver the option at position `i` (from 0) has
the boost `99 - i` and the kind `value`; so the boosts fall strictly along the list,
the first option has 99, and from position 100 on the boost is negative. -/
theorem boost_by_position :
    (∀ (st : State) (doc : List Char) (pos : Nat) (r : CompletionResult),
        htmlContextCompletions st ⟨doc, pos⟩ = some r →
          (∀ (i : Nat) (o : Completion), r.options[i]? = some o → o.boost = 99 - (i : Int) ∧ o.type = "value") ∧
          (∀ (i j : Nat) (oi oj : Completion), i < j → r.options[i]? = some oi → r.options[j]? = some oj →
            oj.boost < oi.boost) ∧
          (∀ o : Completion, r.options[0]? = some o → o.boost = 99) ∧
          (∀ (i : Nat) (o : Completion), 100 ≤ i → r.options[i]? = some o → o.boost < 0)) ∧
      (∀ (doc : List Char) (pos : Nat) (r : CompletionResult),
        cssContextCompletions ⟨doc, pos⟩ = .ok (some r) →
          (∀ (i : Nat) (o : Completion), r.options[i]? = some o → o.boost = 99 - (i : Int) ∧ o.type = "value") ∧
          (∀ (i j : Nat) (oi oj : Completion), i < j → r.options[i]? = some oi → r.options[j]? = some oj →
            oj.boost < oi.boost) ∧
          (∀ o : Completion, r.options[0]? = some o → o.boost = 99) ∧
          (∀ (i : Nat) (o : Completion), 100 ≤ i → r.options[i]? = some o → o.boost < 0)) := by
  constructor
  · intro st doc pos r h
    obtain ⟨pre, P, -, -, -, hr⟩ := html_some_inv st doc pos r h
    subst hr
    exact ranked_mapWithIndexFrom _
  · intro doc pos r h
    obtain ⟨i, N, S1, S2, V, values, -, -, -, -, -, -, -, -, -, hr⟩ := css_some_inv doc pos r h
    subst hr
    exact ranked_mapWithIndexFrom _

/-- Witness of C12: a vocabulary of 101 entries `a` and the document `<`: the option
at position 100 has the boost `-1`; and the second option for `pointer-events:` has
the boost 98. -/
theorem boost_by_position_witness :
    (mapWithIndexFrom toOption 0 (List.replicate 101 "a".toList))[100]? =
        some ⟨"a".toList, "value", -1⟩ ∧
      (⟨"a".toList, "value", -1⟩ : Completion).boost < 0 ∧
      (⟨"none".toList, "value", 98⟩ : Completion).boost = 99 - ((1 : Nat) : Int) :=
  ⟨by decide,
   (boost_by_position.1 ⟨List.replicate 101 "a".toList⟩ "<".toList 1
      ⟨1, mapWithIndexFrom toOption 0 (List.replicate 101 "a".toList)⟩ (by decide)).2.2.2
      100 ⟨"a".toList, "value", -1⟩ (by decide) (by decide),
   ((boost_by_position.2 "pointer-events:".toList 15
      ⟨15, [⟨"auto".toList, "value", 99⟩, ⟨"none".toList, "value", 98⟩]⟩ rfl).1
      1 ⟨"none".toList, "value", 98⟩ (by decide)).1⟩

/-! ## The CSS resolver with an empty partial value -/

theorem wellKnownProperties_keys_ne_nil :
    ∀ k ∈ wellKnownProperties.map Prod.fst, k ≠ [] := by
  decide

/-- C13, as amended: for every key `K` of `wellKnownProperties` with the array `values`
and every document whose text before the cursor is `K`, white space, `:` and white
space, where `K` is the whole run of word or hyphen characters (no such character
stands before it) and the white space has no line terminator, the result has `from`
equal to the cursor and its options are all `values` in table order with the boosts
99, 98, ... -/
theorem css_empty_value (doc : List Char) (pos : Nat) (pre K S1 S2 : List Char)
    (values : List (List Char))
    (h : doc.take pos = pre ++ (K ++ S1 ++ ':' :: (S2 ++ [])))
    (hpre : ∀ c, pre.getLast? = some c → isWordOrHyphen c = false)
    (hS1 : ∀ c ∈ S1, isSpace c = true) (hS2 : ∀ c ∈ S2, isSpace c = true)
    (hdot : ∀ c ∈ S1 ++ S2, isLineTerminator c = false)
    (hkey : wellKnownProperties.lookup K = some values) :
    ∃ r, cssContextCompletions ⟨doc, pos⟩ = .ok (some r) ∧ r.from = (pos : Int) ∧
      r.options.map Completion.label = values ∧
      ∀ (i : Nat) (o : Completion), r.options[i]? = some o →
        o.boost = 99 - (i : Int) ∧ o.type = "value" ∧ values[i]? = some o.label := by
  have hmem : K ∈ wellKnownProperties.map Prod.fst :=
    List.mem_map.2 ⟨_, lookup_some_mem _ _ _ hkey, rfl⟩
  have hK := wellKnownProperties_keys_word K hmem
  have hne := wellKnownProperties_keys_ne_nil K hmem
  have hcss := css_all_values_of_known_name doc pos pre K S1 S2 [] values h hpre hne hK hS1 hS2
    (by simp) hdot hkey
  refine ⟨_, hcss, by simp, map_label_mapWithIndexFrom 0 values, ?_⟩
  intro i o ho
  have := getElem?_mapWithIndexFrom 0 values i o ho
  refine ⟨?_, this.2.1, this.2.2⟩
  rw [this.1]
  simp

/-- Witness of C13: `display:` with the cursor right after the colon gives the seven
values of `display` with the boosts 99 to 93 and `from` equal to the cursor. -/
theorem css_empty_value_witness :
    cssContextCompletions ⟨"display:".toList, 8⟩ =
        .ok (some ⟨8, [⟨"block".toList, "value", 99⟩, ⟨"inline-block".toList, "value", 98⟩,
          ⟨"flex".toList, "value", 97⟩, ⟨"inline-flex".toList, "value", 96⟩,
          ⟨"grid".toList, "value", 95⟩, ⟨"inline-grid".toList, "value", 94⟩,
          ⟨"none".toList, "value", 93⟩]⟩) ∧
      ∃ r, cssContextCompletions ⟨"display:".toList, 8⟩ = .ok (some r) ∧
        r.from = ((8 : Nat) : Int) ∧
        r.options.map Completion.label = (["block", "inline-block", "flex", "inline-flex", "grid",
          "inline-grid", "none"].map String.toList) ∧
        ∀ (i : Nat) (o : Completion), r.options[i]? = some o →
          o.boost = 99 - (i : Int) ∧ o.type = "value" ∧
            (["block", "inline-block", "flex", "inline-flex", "grid",
          "inline-grid", "none"].map String.toList)[i]? = some o.label :=
  ⟨rfl,
   css_empty_value "display:".toList 8 [] "display".toList [] []
    (["block", "inline-block", "flex", "inline-flex", "grid",
          "inline-grid", "none"].map String.toList) (by decide) (by decide) (by decide) (by decide) (by decide) (by decide)⟩

/-- Counterexample of C13 as stated: the text `xdisplay:` ends with the key `display`
and the colon, and the result is `null`, the name looked up being `xdisplay`; and
`display:` followed by the line separator U+2028 gives `null` as well. -/
theorem css_empty_value_counterexample :
    "xdisplay:".toList.take 9 = "x".toList ++ ("display".toList ++ [] ++ ':' :: ([] ++ [])) ∧
      (wellKnownProperties.lookup "display".toList).isSome = true ∧
      cssContextCompletions ⟨"xdisplay:".toList, 9⟩ = .ok none ∧
      isSpace (Char.ofNat 8232) = true ∧
      cssContextCompletions ⟨"display:".toList ++ [Char.ofNat 8232], 9⟩ = .ok none :=
  ⟨by decide, by decide, rfl, by decide, rfl⟩

/-! ## The replacement of the vocabulary -/

/-- C14: after `cpSetWellKnownHtmlTags(V)` the vocabulary is `V`, the result of
`htmlContextCompletions` is the same whatever the state was before, a call of the
resolver leaves this state in place for the next call, and after
`cpSetWellKnownHtmlTags([])` the resolver returns `null` for every document and
cursor. -/
theorem cpSetWellKnownHtmlTags_spec (V : List (List Char)) (st st2 : State)
    (context context2 : CompletionContext) :
    (cpSetWellKnownHtmlTags V st).wellKnownHtmlTags = V ∧
      htmlContextCompletions (cpSetWellKnownHtmlTags V st) context =
        htmlContextCompletions (cpSetWellKnownHtmlTags V st2) context ∧
      htmlContextCompletions (cpSetWellKnownHtmlTags V initialState) context =
        htmlContextCompletions ⟨V⟩ context ∧
      htmlContextCompletions
          (callHtmlContextCompletions (cpSetWellKnownHtmlTags V st) context).2 context2 =
        htmlContextCompletions ⟨V⟩ context2 ∧
      htmlContextCompletions (cpSetWellKnownHtmlTags [] st) context = none := by
  refine ⟨rfl, rfl, rfl, rfl, ?_⟩
  unfold htmlContextCompletions cpSetWellKnownHtmlTags
  split
  · rfl
  · simp

/-! ## The example of the prefix `<abc` -/

/-- C15, as amended: with the vocabulary `["abbr", "abcdef"]` and `<abc` right before
the cursor, `htmlContextCompletions` returns `from` equal to the cursor minus 3 and
the single option `abcdef` with the boost 99; `abbr` does not start with `abc`. -/
theorem html_abc_result (doc : List Char) (pos : Nat) (pre : List Char)
    (h : doc.take pos = pre ++ "<abc".toList) :
    htmlContextCompletions ⟨["abbr".toList, "abcdef".toList]⟩ ⟨doc, pos⟩ =
      some ⟨(pos : Int) - 3, [⟨"abcdef".toList, "value", 99⟩]⟩ := by
  rw [html_of_match ⟨["abbr".toList, "abcdef".toList]⟩ doc pos pre "abc".toList h (by decide)]
  rfl

/-- Witness of C15: the document `x <abc y` with the cursor at offset 6. -/
theorem html_abc_result_witness :
    htmlContextCompletions ⟨["abbr".toList, "abcdef".toList]⟩ ⟨"x <abc y".toList, 6⟩ =
      some ⟨((6 : Nat) : Int) - 3, [⟨"abcdef".toList, "value", 99⟩]⟩ :=
  html_abc_result "x <abc y".toList 6 "x ".toList (by decide)

/-- Counterexample of C15 as stated: for the document `<abc` and the cursor at its end
the labels are `abcdef` alone, not `abbr` and `abcdef`. -/
theorem html_abc_counterexample :
    htmlContextCompletions ⟨["abbr".toList, "abcdef".toList]⟩ ⟨"<abc".toList, 4⟩ =
        some ⟨1, [⟨"abcdef".toList, "value", 99⟩]⟩ ∧
      [(⟨"abcdef".toList, "value", 99⟩ : Completion)].map Completion.label ≠
        ["abbr".toList, "abcdef".toList] ∧
      "abc".toList.isPrefixOf "abbr".toList = false :=
  ⟨by decide, by decide, by decide⟩

/-! ## The construction of an editor for a language key -/

/-- A language key that `languageDefinitions` does not declare and that is not inherited
from `Object.prototype`: the error is reported and `undefined` is returned. -/
theorem cpOpenEditorIn_of_unknown (element : Nat) (doc lang : List Char)
    (hkey : languageDefinitions.lookup lang = none) (hproto : lang ∉ objectPrototypeKeys) :
    cpOpenEditorIn element doc lang =
      { errors := ["Unknown language: ".toList ++ lang], result := .ok none } := by
  unfold cpOpenEditorIn languageDefinitionsGet
  rw [hkey]
  simp [hproto]

/-- The declared keys `html` and `css` give an editor. -/
theorem cpOpenEditorIn_of_declared (element : Nat) (doc : List Char) :
    (cpOpenEditorIn element doc "html".toList).result =
        .ok (some ⟨element, ⟨doc, some .customHtmlCompletions, .html⟩⟩) ∧
      (cpOpenEditorIn element doc "css".toList).result =
        .ok (some ⟨element, ⟨doc, some .customCssCompletions, .css⟩⟩) :=
  ⟨rfl, rfl⟩

/-- C16, at the language keys `constructor` and `toString`: the keys are not declared
in `languageDefinitions`, and `cpOpenEditorIn:on:language:` reports no error and raises
a `TypeError` where the claim has the error message and the value `undefined`. -/
theorem cpOpenEditorIn_inherited_raises (element : Nat) (doc : List Char) :
    languageDefinitions.lookup "constructor".toList = none ∧
      (cpOpenEditorIn element doc "constructor".toList).errors = [] ∧
      (cpOpenEditorIn element doc "constructor".toList).result = .error .typeError ∧
      languageDefinitions.lookup "toString".toList = none ∧
      (cpOpenEditorIn element doc "toString".toList).errors = [] ∧
      (cpOpenEditorIn element doc "toString".toList).result = .error .typeError :=
  ⟨by decide, rfl, rfl, by decide, rfl, rfl⟩

/-! ## Determinism and purity -/

/-- The program of the HTML resolver computes `htmlContextCompletions` on the
vocabulary of the state and leaves the state as it is. -/
theorem htmlContextCompletionsM_run (context : CompletionContext) (m : ModuleState) :
    (htmlContextCompletionsM context).run m =
      (htmlContextCompletions ⟨m.wellKnownHtmlTags⟩ context, m) := by
  unfold htmlContextCompletionsM htmlContextCompletions
  cases hm : context.matchBefore htmlTagRegExp with
  | none => rfl
  | some textBefore =>
    simp only [StateT.run, bind, StateT.bind, get, getThe, MonadStateOf.get, StateT.get, pure,
      StateT.pure]
    split <;> rfl

/-- The program of the CSS resolver leaves the state as it is, whatever the table
holds. -/
theorem cssContextCompletionsM_state (context : CompletionContext) (m : ModuleState) :
    ((cssContextCompletionsM context).run m).2 = m := by
  unfold cssContextCompletionsM
  cases hm : context.matchBefore cssPropertyRegExp with
  | none => rfl
  | some textBefore =>
    simp only [StateT.run, bind, StateT.bind, get, getThe, MonadStateOf.get, StateT.get, pure,
      StateT.pure]
    generalize memberAccess _ _ = v
    cases v <;> rfl

/-- On the table of the source the program of the CSS resolver computes
`cssContextCompletions`. -/
theorem cssContextCompletionsM_result (context : CompletionContext) (m : ModuleState)
    (h : m.wellKnownProperties = wellKnownProperties) :
    ((cssContextCompletionsM context).run m).1 = cssContextCompletions context := by
  unfold cssContextCompletionsM cssContextCompletions
  cases hm : context.matchBefore cssPropertyRegExp with
  | none => rfl
  | some textBefore =>
    simp only [StateT.run, bind, StateT.bind, get, getThe, MonadStateOf.get, StateT.get, pure,
      StateT.pure, h]
    have hget : ∀ name, memberAccess wellKnownProperties name = wellKnownPropertiesGet name :=
      fun _ => rfl
    rw [hget]
    generalize wellKnownPropertiesGet _ = v
    cases v <;> rfl

/-- A call of a resolver leaves the state as it is. -/
theorem Call.run_state (call : Call) (m : ModuleState) (h : call.isResolver = true) :
    (call.run.run m).2 = m := by
  cases call with
  | html context =>
    have := htmlContextCompletionsM_run context m
    simp only [Call.run, StateT.run, bind, StateT.bind, pure, StateT.pure] at this ⊢
    rw [this]
  | css context =>
    have := cssContextCompletionsM_state context m
    simp only [Call.run, StateT.run, bind, StateT.bind, pure, StateT.pure] at this ⊢
    exact this
  | setWellKnownHtmlTags htmlTags => simp [Call.isResolver] at h

/-- Calls of resolvers, one after the other, leave the state as it is. -/
theorem runCalls_state (calls : List Call) (m : ModuleState)
    (h : ∀ call ∈ calls, call.isResolver = true) : ((runCalls calls).run m).2 = m := by
  induction calls generalizing m with
  | nil => rfl
  | cons call calls ih =>
    have h1 := Call.run_state call m (h call (by simp))
    have h2 := ih (call.run.run m).2 (fun c hc => h c (by simp [hc]))
    simp only [runCalls, StateT.run, bind, StateT.bind, pure, StateT.pure] at h1 h2 ⊢
    cases hc : call.run m with
    | mk a s =>
      rw [hc] at h1 h2
      simp only at h1 h2 ⊢
      cases hr : runCalls calls s with
      | mk rs s2 =>
        rw [hr] at h2
        simp only at h2 ⊢
        rw [h2, h1]

/-- C17: a call of `htmlContextCompletions` or of `cssContextCompletions` leaves the
module state, that is the HTML vocabulary and the CSS table, as it was, and so does
every sequence of resolver calls; a second call of a resolver on the same query, right
after the first or after any calls in which the vocabulary is not replaced, returns
what the first call returned. -/
theorem resolver_calls_pure (m : ModuleState) (calls : List Call)
    (context : CompletionContext) (hcalls : ∀ call ∈ calls, call.isResolver = true) :
    ((htmlContextCompletionsM context).run m).2 = m ∧
      ((cssContextCompletionsM context).run m).2 = m ∧
      ((runCalls calls).run m).2 = m ∧
      ((htmlContextCompletionsM context).run ((htmlContextCompletionsM context).run m).2).1 =
        ((htmlContextCompletionsM context).run m).1 ∧
      ((cssContextCompletionsM context).run ((cssContextCompletionsM context).run m).2).1 =
        ((cssContextCompletionsM context).run m).1 ∧
      ((htmlContextCompletionsM context).run ((runCalls calls).run m).2).1 =
        ((htmlContextCompletionsM context).run m).1 ∧
      ((cssContextCompletionsM context).run ((runCalls calls).run m).2).1 =
        ((cssContextCompletionsM context).run m).1 := by
  have h1 : ((htmlContextCompletionsM context).run m).2 = m := by
    rw [htmlContextCompletionsM_run]
  have h2 := cssContextCompletionsM_state context m
  have h3 := runCalls_state calls m hcalls
  refine ⟨h1, h2, h3, ?_, ?_, ?_, ?_⟩
  · rw [h1]
  · rw [h2]
  · rw [h3]
  · rw [h3]

/-- Witness of C17: after a call of the CSS resolver and a call of the HTML resolver
the state is the initial one and the HTML resolver returns for `<d` what it returned
before; after a replacement of the vocabulary by the empty one it does not. -/
theorem resolver_calls_pure_witness :
    ((runCalls [.css ⟨"display:".toList, 8⟩, .html ⟨"<s".toList, 2⟩]).run
        initialModuleState).2 = initialModuleState ∧
      ((htmlContextCompletionsM ⟨"<d".toList, 2⟩).run
          ((runCalls [.css ⟨"display:".toList, 8⟩, .html ⟨"<s".toList, 2⟩]).run
            initialModuleState).2).1 =
        ((htmlContextCompletionsM ⟨"<d".toList, 2⟩).run initialModuleState).1 ∧
      ((htmlContextCompletionsM ⟨"<d".toList, 2⟩).run initialModuleState).1 =
        some ⟨1, [⟨"div".toList, "value", 99⟩]⟩ ∧
      ((runCalls [.setWellKnownHtmlTags []]).run initialModuleState).2 ≠ initialModuleState ∧
      ((htmlContextCompletionsM ⟨"<d".toList, 2⟩).run
          ((runCalls [.setWellKnownHtmlTags []]).run initialModuleState).2).1 = none :=
  ⟨(resolver_calls_pure initialModuleState
      [.css ⟨"display:".toList, 8⟩, .html ⟨"<s".toList, 2⟩] ⟨"<d".toList, 2⟩
      (by decide)).2.2.1,
   (resolver_calls_pure initialModuleState
      [.css ⟨"display:".toList, 8⟩, .html ⟨"<s".toList, 2⟩] ⟨"<d".toList, 2⟩
      (by decide)).2.2.2.2.2.1,
   by decide, by decide, by decide⟩

/-! ## The extraction of the property name -/

/-- Without a line terminator in the white space, the match found by `matchBefore`
starts at the first character of the whole run of word or hyphen characters and the
replacement keeps exactly that run. -/
theorem propertyName_whole_run (doc : List Char) (pos : Nat) (pre N S1 S2 V : List Char)
    (h : doc.take pos = pre ++ (N ++ S1 ++ ':' :: (S2 ++ V)))
    (hpre : ∀ c, pre.getLast? = some c → isWordOrHyphen c = false) (hne : N ≠ [])
    (hN : ∀ c ∈ N, isWordOrHyphen c = true) (hS1 : ∀ c ∈ S1, isSpace c = true)
    (hS2 : ∀ c ∈ S2, isSpace c = true) (hV : ∀ c ∈ V, isWordOrHyphen c = true)
    (hdot : ∀ c ∈ S1 ++ S2, isLineTerminator c = false) :
    CompletionContext.matchBefore ⟨doc, pos⟩ cssPropertyRegExp = some ⟨pre.length, pos⟩ ∧
      replaceByGroup1 propertyNameRegExp
        (CompletionContext.sliceDoc ⟨doc, pos⟩ pre.length pos) = N := by
  constructor
  · unfold CompletionContext.matchBefore
    simp only [h, search_cssPropertyRegExp pre N S1 S2 V hpre hne hN hS1 hS2 hV]
  · rw [sliceDoc_eq, h, List.drop_left]
    exact propertyName_of_match N S1 S2 V hne hN hS1 hV hdot

/-- The examples of the claim on the property name: `flex-direction: r` gives the values
of `flex-direction`, and `xdisplay: ` gives `null`. -/
theorem propertyName_examples :
    replaceByGroup1 propertyNameRegExp "flex-direction: r".toList = "flex-direction".toList ∧
      cssContextCompletions ⟨"flex-direction: r".toList, 17⟩ =
        .ok (some ⟨16, [⟨"row".toList, "value", 99⟩, ⟨"column".toList, "value", 98⟩,
          ⟨"row-reverse".toList, "value", 97⟩, ⟨"column-reverse".toList, "value", 96⟩]⟩) ∧
      replaceByGroup1 propertyNameRegExp "xdisplay: ".toList = "xdisplay".toList ∧
      cssContextCompletions ⟨"xdisplay: ".toList, 10⟩ = .ok none :=
  ⟨by decide, rfl, by decide, rfl⟩

/-- C18, at the documents `display:` followed by a line feed and `display:` followed by
the line separator U+2028, the cursor at the end: the pattern matches from offset 0, the
replacement `/^([\w\-]+).*$/` does not match, since `.` takes no line terminator, and
the name looked up is the whole matched text, not the run `display`; the result is
`null`. -/
theorem propertyName_lineTerminator :
    CompletionContext.matchBefore ⟨"display:\n".toList, 9⟩ cssPropertyRegExp =
        some ⟨0, 9⟩ ∧
      replaceByGroup1 propertyNameRegExp
          (CompletionContext.sliceDoc ⟨"display:\n".toList, 9⟩ 0 9) = "display:\n".toList ∧
      cssContextCompletions ⟨"display:\n".toList, 9⟩ = .ok none ∧
      CompletionContext.matchBefore ⟨"display:".toList ++ [Char.ofNat 8232], 9⟩
          cssPropertyRegExp = some ⟨0, 9⟩ ∧
      replaceByGroup1 propertyNameRegExp
          (CompletionContext.sliceDoc ⟨"display:".toList ++ [Char.ofNat 8232], 9⟩ 0 9) =
        "display:".toList ++ [Char.ofNat 8232] ∧
      cssContextCompletions ⟨"display:".toList ++ [Char.ofNat 8232], 9⟩ = .ok none :=
  ⟨by decide, by decide, rfl, by decide, by decide, rfl⟩

/-! ## Closing tags -/

/-- C19: when the text before the cursor ends with `</` followed by word or hyphen
characters, `htmlContextCompletions` returns `null`; and for every result the text
before the cursor ends with a `<` that is the last `<` before the cursor, followed by
word or hyphen characters only. -/
theorem html_closing_tag (st : State) :
    (∀ (doc : List Char) (pos : Nat) (pre Q : List Char),
        doc.take pos = pre ++ '<' :: '/' :: Q → (∀ c ∈ Q, isWordOrHyphen c = true) →
          htmlContextCompletions st ⟨doc, pos⟩ = none) ∧
      (∀ (doc : List Char) (pos : Nat) (r : CompletionResult),
        htmlContextCompletions st ⟨doc, pos⟩ = some r →
          ∃ pre P, doc.take pos = pre ++ '<' :: P ∧ '<' ∉ P ∧
            ∀ c ∈ P, isWordOrHyphen c = true) := by
  constructor
  · intro doc pos pre Q h hQ
    apply html_of_no_match
    rintro ⟨pre2, P, h2, hP⟩
    rw [h] at h2
    have hcolon : ∀ c ∈ '/' :: Q, isLt c = false := by
      intro c hc
      rcases List.mem_cons.1 hc with rfl | hc
      · decide
      · have hw := hQ c hc
        cases hl : isLt c with
        | false => rfl
        | true =>
          rw [(isLt_iff c).1 hl] at hw
          revert hw
          decide
    have hP2 : ∀ c ∈ P, isLt c = false := by
      intro c hc
      have hw := hP c hc
      cases hl : isLt c with
      | false => rfl
      | true =>
        rw [(isLt_iff c).1 hl] at hw
        revert hw
        decide
    have hslash : '/' ∉ P := by
      intro hmem
      have := hP _ hmem
      revert this
      decide
    rcases List.append_eq_append_iff.1 h2 with ⟨a, -, h4⟩ | ⟨a, -, h4⟩
    · cases a with
      | nil =>
        simp only [List.nil_append, List.cons.injEq, true_and] at h4
        exact hslash (by rw [← h4]; simp)
      | cons x a =>
        simp only [List.cons_append, List.cons.injEq] at h4
        have hmem : '<' ∈ '/' :: Q := by rw [h4.2]; simp
        have := hcolon _ hmem
        revert this
        decide
    · cases a with
      | nil =>
        simp only [List.nil_append, List.cons.injEq, true_and] at h4
        exact hslash (by rw [h4]; simp)
      | cons x a =>
        simp only [List.cons_append, List.cons.injEq] at h4
        have hmem : '<' ∈ P := by rw [h4.2]; simp
        have := hP2 _ hmem
        revert this
        decide
  · intro doc pos r h
    obtain ⟨pre, P, ht, hP, -, -⟩ := html_some_inv st doc pos r h
    refine ⟨pre, P, ht, ?_, hP⟩
    intro hmem
    have := hP _ hmem
    revert this
    decide

/-- Witness of C19: the document `</di` with the cursor at its end gives `null`. -/
theorem html_closing_tag_witness :
    htmlContextCompletions initialState ⟨"</di".toList, 4⟩ = none :=
  (html_closing_tag initialState).1 "</di".toList 4 [] "di".toList (by decide) (by decide)

end CodeMirrorBuild
